import Mathlib

/-!
Verification of the compression core of the CEP-CS218 repository.

This file shallowly embeds the two codecs of the repository:

* `lz77.py` — sliding-window LZ77 compressor/decompressor with a
  bit-packed token stream (`find_longest_match`, `encode_lz77`,
  `compress_lz77_file`, `decompress_lz77_file`);
* `huffman.py` — static Huffman compressor/decompressor built on
  CPython's `heapq` priority queue (`build_huffman_tree_and_codes`,
  `compress_file`, `decompress_file`).

Byte buffers are `List Nat` (each element a byte value `< 256`, stated as a
hypothesis where it matters), bit streams are `List Bool` (MSB first, as
packed by the code), and fallible operations return `Option`/sum types that
record exactly the error strings / exceptions the Python code produces.
-/

set_option maxHeartbeats 1000000

namespace CEP

/-! ## LZ77 constants (lz77.py lines 6-8) -/

def SEARCH_WINDOW_SIZE : Nat := 4095

def LOOKAHEAD_SIZE : Nat := 15

def MIN_MATCH_LENGTH : Nat := 3

/-! ## LZ77 matcher (`find_longest_match`) -/

/-- Longest common initial run of two byte lists.  This is the inner loop of
`find_longest_match` (lz77.py lines 39-48): the loop bound
`limit = min(len(lookahead), len(window) - index_in_window)` is exactly the
point at which one of the two lists runs out, so the loop computes the length
of the longest common initial segment of `window[index:]` and `lookahead`. -/
def commonRunLen : List Nat → List Nat → Nat
  | a :: as, b :: bs => if a = b then commonRunLen as bs + 1 else 0
  | _, _ => 0

/-- One step of the left-to-right window scan of `find_longest_match`
(lz77.py lines 29-53).  `best` is the pair `(best_distance, max_length)`; a
candidate replaces it only when its run length is strictly greater.  The
first-byte filter (`continue` when `window[index] != lookahead[0]`) is
semantically the `commonRunLen = 0` case, which never beats `max_length ≥ 0`,
so it is not modelled separately. -/
def scanStep (window lookahead : List Nat) (best : Nat × Nat) (idx : Nat) :
    Nat × Nat :=
  let l := commonRunLen (window.drop idx) lookahead
  if best.2 < l then (window.length - idx, l) else best

/-- `find_longest_match(window, lookahead)` from lz77.py: returns
`(distance, length)`, with `(0, 0)` when the lookahead is shorter than
`MIN_MATCH_LENGTH` or no run of at least `MIN_MATCH_LENGTH` exists. -/
def findLongestMatch (window lookahead : List Nat) : Nat × Nat :=
  if lookahead.length < MIN_MATCH_LENGTH then (0, 0)
  else
    let best := (List.range window.length).foldl (scanStep window lookahead) (0, 0)
    if best.2 < MIN_MATCH_LENGTH then (0, 0) else best

/-! ## LZ77 encoder (`encode_lz77`) -/

/-- The token loop of `encode_lz77` (lz77.py lines 59-82) from position `i`.
A token is `(distance, length, next_literal)`; a literal token is emitted as
`(0, 0, data[i])` exactly as in the Python code.  The window slice
`data[max(0, i - SEARCH_WINDOW_SIZE) : i]` is `(data.take i).drop
(i - SEARCH_WINDOW_SIZE)` (truncated subtraction is `max(0, ·)`).
The recursion is bounded by `fuel`, always called with
`fuel = data.length - i`; the position advances by at least one each
iteration, so the fuel never runs out before the loop condition
`i < data.length` fails, and the fuel-exhausted result `[]` coincides with
the loop exit. -/
def encodeFromF (data : List Nat) : Nat → Nat → List (Nat × Nat × Option Nat)
  | _, 0 => []
  | i, fuel + 1 =>
    if i < data.length then
      let window := (data.take i).drop (i - SEARCH_WINDOW_SIZE)
      let lookahead := (data.drop i).take LOOKAHEAD_SIZE
      let dl := findLongestMatch window lookahead
      if MIN_MATCH_LENGTH ≤ dl.2 then
        (dl.1, dl.2,
          if i + dl.2 < data.length then some (data.getD (i + dl.2) 0) else none) ::
          encodeFromF data
            (i + dl.2 + (if i + dl.2 < data.length then 1 else 0)) fuel
      else (0, 0, some (data.getD i 0)) :: encodeFromF data (i + 1) fuel
    else []

/-- The token loop from position `i`. -/
def encodeFrom (data : List Nat) (i : Nat) : List (Nat × Nat × Option Nat) :=
  encodeFromF data i (data.length - i)

/-- `encode_lz77(data)`. -/
def encodeLZ77 (data : List Nat) : List (Nat × Nat × Option Nat) :=
  encodeFrom data 0

/-! ## Bit packing (`pack_and_write_to_mem` in `compress_lz77_file`, and the
identical inline `buffer`/`bit_count` loop of `compress_file` in huffman.py) -/

/-- MSB-first bits of the `width` low bits of `value`: the loop
`for i in range(num_bits - 1, -1, -1): bit = (value >> i) & 1`. -/
def natBits (value width : Nat) : List Bool :=
  (List.range width).map (fun k => value.testBit (width - 1 - k))

/-- Value of an MSB-first bit string (`result = (result << 1) | bit`). -/
def natOfBits (bits : List Bool) : Nat :=
  bits.foldl (fun a b => a * 2 + (if b then 1 else 0)) 0

/-- One bit through the packer state `(buffer, bit_count, encoded_data)`
(`buffer = (buffer << 1) | bit; bit_count += 1; if bit_count == 8: append`). -/
def packStep : Nat × Nat × List Nat → Bool → Nat × Nat × List Nat
  | (buffer, bitcount, out), bit =>
    let buffer' := buffer * 2 + (if bit then 1 else 0)
    if bitcount + 1 = 8 then (0, 0, out ++ [buffer'])
    else (buffer', bitcount + 1, out)

/-- Pack a bit stream into bytes, returning `(bytes, padding_bits)`: the final
padding step is `if bit_count > 0: padding = 8 - bit_count;
buffer <<= padding; append(buffer)` (lz77.py lines 148-152, and the same
logic in huffman.py lines 146-150). -/
def packBits (bits : List Bool) : List Nat × Nat :=
  let s := bits.foldl packStep (0, 0, [])
  if 0 < s.2.1 then
    (s.2.2 ++ [s.1 * 2 ^ (8 - s.2.1)], 8 - s.2.1)
  else (s.2.2, 0)

/-- Bit encoding of one token (`compress_lz77_file` lines 125-143): a match
token is flag `1`, 12-bit distance, 4-bit `length - 3`, and the 8-bit trailing
literal only when one was recorded; a literal token is flag `0` plus the
8-bit byte. -/
def tokenBits : Nat × Nat × Option Nat → List Bool
  | (d, l, lit) =>
    if MIN_MATCH_LENGTH ≤ l then
      true :: (natBits d 12 ++ natBits (l - MIN_MATCH_LENGTH) 4 ++
        (match lit with
          | some b => natBits b 8
          | none => []))
    else
      false :: natBits (lit.getD 0) 8

/-- The whole packed token bit stream of `compress_lz77_file`. -/
def lzBits (data : List Nat) : List Bool :=
  (encodeLZ77 data).flatMap tokenBits

/-! ## Big-endian integer serialization (`int.to_bytes` / `int.from_bytes`) -/

/-- `value.to_bytes(width, byteorder='big')`.  The Python call raises
`OverflowError` when `value ≥ 2^(8*width)`; callers model that case
explicitly, so this definition is only ever used below that bound. -/
def toBytesBE (value width : Nat) : List Nat :=
  (List.range width).map (fun k => value / 2 ^ (8 * (width - 1 - k)) % 256)

/-- `int.from_bytes(bs, byteorder='big')`. -/
def fromBytesBE (bs : List Nat) : Nat :=
  bs.foldl (fun a b => a * 256 + b) 0

/-- `compress_lz77_file` minus the filesystem: `None` models the two failure
paths (empty input is rejected with "Compression failed: File is empty.",
and `original_size.to_bytes(8, 'big')` raises for sizes `≥ 2^64`).  The blob
is the 8-byte big-endian original size, the 1-byte padding count, then the
packed payload. -/
def lzCompress (data : List Nat) : Option (List Nat) :=
  if data = [] then none
  else if 2 ^ 64 ≤ data.length then none
  else
    let pb := packBits (lzBits data)
    some (toBytesBE data.length 8 ++ [pb.2] ++ pb.1)

/-! ## LZ77 decoder (`decompress_lz77_file`) -/

/-- Bit `k` (absolute, MSB-first) of a byte buffer:
`byte_value >> (7 - bit_in_byte) & 1` with `byte_index = k / 8`,
`bit_in_byte = k % 8`. -/
def bitAt (bytes : List Nat) (k : Nat) : Bool :=
  Nat.testBit (bytes.getD (k / 8) 0) (7 - k % 8)

/-- The accumulated value read by `read_bits`:
`result = (result << 1) | bit` over `width` consecutive bits from `pos`. -/
def readBitsVal (bytes : List Nat) (pos width : Nat) : Nat :=
  (List.range width).foldl
    (fun acc k => acc * 2 + (if bitAt bytes (pos + k) then 1 else 0)) 0

/-- `read_bits(num_bits)` of `decompress_lz77_file`: `None` when fewer than
`width` bits remain before `MAX_BITS`. -/
def readBits (bytes : List Nat) (maxBits pos width : Nat) : Option Nat :=
  if maxBits < pos + width then none
  else some (readBitsVal bytes pos width)

/-- The byte-at-a-time back-reference copy of `decompress_lz77_file`
(lines 269-281), including the early `decoded_count >= original_size` break.
Returns the extended buffer and count. -/
def copyLoop (origSize : Nat) : Nat → List Nat → Nat → Nat → List Nat × Nat
  | 0, out, _, count => (out, count)
  | steps + 1, out, start, count =>
    if origSize ≤ count then (out, count)
    else copyLoop origSize steps (out ++ [out.getD start 0]) (start + 1) (count + 1)

/-- Result of the main loop of `decompress_lz77_file`: `done` carries the
output buffer, the decoded count and the bit cursor when the loop exits
normally (count reached, or bit exhaustion — in which case `read_bits` has
set the cursor to `MAX_BITS`); `corrupt` is the `ValueError` raised for an
invalid back-reference distance, which aborts the call before any output
file is written. -/
inductive LzLoopRes
  | done (out : List Nat) (count pos : Nat)
  | corrupt
deriving DecidableEq, Repr

/-- The `while decoded_count < original_size` loop of `decompress_lz77_file`.
`read_bits(1)` always returns a value `< 2`, so the `flag == 1` branch is the
`else` of the `flag == 0` test.  The recursion is bounded by `fuel`, always
called with `fuel = origSize - count`; every iteration that recurses has
appended at least one byte (a literal, or at least one copied byte since the
copy loop runs with `count < origSize` and `length ≥ 3`), so the fuel never
runs out before the loop condition fails, and the fuel-exhausted result is
the ordinary loop exit. -/
def lzLoopF (bytes : List Nat) (maxBits origSize : Nat) :
    Nat → List Nat → Nat → Nat → LzLoopRes
  | pos, out, count, 0 => .done out count pos
  | pos, out, count, fuel + 1 =>
    if count < origSize then
      match readBits bytes maxBits pos 1 with
      | none => .done out count maxBits
      | some flag =>
        if flag = 0 then
          match readBits bytes maxBits (pos + 1) 8 with
          | none => .done out count maxBits
          | some lit => lzLoopF bytes maxBits origSize (pos + 9) (out ++ [lit]) (count + 1) fuel
        else
          match readBits bytes maxBits (pos + 1) 12 with
          | none => .done out count maxBits
          | some dist =>
            match readBits bytes maxBits (pos + 13) 4 with
            | none => .done out count maxBits
            | some lcode =>
              let length := lcode + MIN_MATCH_LENGTH
              if count + length < origSize then
                match readBits bytes maxBits (pos + 17) 8 with
                | none => .done out count maxBits
                | some lit =>
                  if dist = 0 ∨ out.length < dist then .corrupt
                  else
                    let oc := copyLoop origSize length out (out.length - dist) count
                    if oc.2 < origSize then
                      lzLoopF bytes maxBits origSize (pos + 25) (oc.1 ++ [lit]) (oc.2 + 1) fuel
                    else
                      lzLoopF bytes maxBits origSize (pos + 25) oc.1 oc.2 fuel
              else
                if dist = 0 ∨ out.length < dist then .corrupt
                else
                  let oc := copyLoop origSize length out (out.length - dist) count
                  lzLoopF bytes maxBits origSize (pos + 17) oc.1 oc.2 fuel
    else .done out count pos

/-- The decoder loop, with the fuel instantiated. -/
def lzLoop (bytes : List Nat) (maxBits origSize pos : Nat) (out : List Nat)
    (count : Nat) : LzLoopRes :=
  lzLoopF bytes maxBits origSize pos out count (origSize - count)

/-- Result of `decompress_lz77_file`.  `success` and `sizeMismatch` both
write the (possibly partial) output buffer to the output file before the
final size check; `corruptStream` (the `ValueError`) and `headerTruncated`
abort before the output file is opened, so nothing is written. -/
inductive LzResult
  | success (written : List Nat)
  | sizeMismatch (written : List Nat) (found expected : Nat)
  | corruptStream
  | headerTruncated
deriving DecidableEq, Repr

/-- `decompress_lz77_file` minus the filesystem: parse the 8-byte size and
1-byte padding, compute `MAX_BITS = len(payload) * 8 - padding`, and run the
token loop. -/
def lzDecompress (blob : List Nat) : LzResult :=
  if blob.length < 8 then .headerTruncated
  else if blob.length < 9 then .headerTruncated
  else
    let origSize := fromBytesBE (blob.take 8)
    let padding := blob.getD 8 0
    let payload := blob.drop 9
    let maxBits := payload.length * 8 - padding
    match lzLoop payload maxBits origSize 0 [] 0 with
    | .corrupt => .corruptStream
    | .done out count _ =>
      if count = origSize then .success out else .sizeMismatch out count origSize

/-! ## Huffman tree (`HuffmanNode` of huffman.py) -/

/-- `HuffmanNode`: a leaf carries the byte value (the Python `byte` field,
`None` on internal nodes), an internal node carries its two children; both
carry the frequency weight used by `__lt__`. -/
inductive HNode
  | leaf (byte freq : Nat)
  | node (freq : Nat) (left right : HNode)
deriving DecidableEq, Repr

/-- The `freq` field. -/
def HNode.hfreq : HNode → Nat
  | .leaf _ f => f
  | .node f _ _ => f

/-- The `byte` field (`None` on internal nodes). -/
def HNode.hbyte : HNode → Option Nat
  | .leaf b _ => some b
  | .node _ _ _ => none

instance : Inhabited HNode := ⟨.leaf 0 0⟩

/-! ## CPython `heapq` (imported by huffman.py, so part of the embedded
program).  Comparison is `HuffmanNode.__lt__`, i.e. strict comparison of the
`freq` fields only. -/

/-- CPython `heapq._siftdown(heap, startpos, pos)`: `newitem` bubbles towards
the root while it is `<` its parent; parents shift down into the vacated
slots, and `newitem` lands in the final position.  The recursion is bounded
by `fuel`; the position strictly decreases each iteration, so the wrapper's
`fuel = pos` always suffices, and the fuel-exhausted action (which is only
reachable at `pos = 0`) is the ordinary loop exit. -/
def siftdownF : Nat → List HNode → Nat → Nat → HNode → List HNode
  | 0, heap, _, pos, newitem => heap.set pos newitem
  | fuel + 1, heap, startpos, pos, newitem =>
    if startpos < pos then
      if newitem.hfreq < (heap.getD ((pos - 1) / 2) default).hfreq then
        siftdownF fuel (heap.set pos (heap.getD ((pos - 1) / 2) default)) startpos
          ((pos - 1) / 2) newitem
      else heap.set pos newitem
    else heap.set pos newitem

/-- `heapq._siftdown`, with the fuel instantiated. -/
def siftdownAux (heap : List HNode) (startpos pos : Nat) (newitem : HNode) :
    List HNode :=
  siftdownF pos heap startpos pos newitem

/-- CPython `heapq._siftup(heap, pos)` with `endpos = len(heap)`: the hole at
`pos` repeatedly takes the smaller child (the right child when
`not heap[childpos] < heap[rightpos]`) until it has no child in range, then
`heap[pos] = newitem; _siftdown(heap, startpos, pos)`.  The recursion is
bounded by `fuel`; the position strictly increases towards `endpos`, so the
wrapper's `fuel = endpos - pos` always suffices, and the fuel-exhausted
action (only reachable when no child is in range) is the loop exit. -/
def siftupF : Nat → List HNode → Nat → Nat → HNode → Nat → List HNode
  | 0, heap, startpos, pos, newitem, _ =>
    siftdownAux (heap.set pos newitem) startpos pos newitem
  | fuel + 1, heap, startpos, pos, newitem, endpos =>
    if 2 * pos + 1 < endpos then
      if 2 * pos + 2 < endpos ∧
          ¬ (heap.getD (2 * pos + 1) default).hfreq
            < (heap.getD (2 * pos + 2) default).hfreq then
        siftupF fuel (heap.set pos (heap.getD (2 * pos + 2) default)) startpos
          (2 * pos + 2) newitem endpos
      else
        siftupF fuel (heap.set pos (heap.getD (2 * pos + 1) default)) startpos
          (2 * pos + 1) newitem endpos
    else siftdownAux (heap.set pos newitem) startpos pos newitem

/-- `heapq._siftup`, with the fuel instantiated. -/
def siftupAux (heap : List HNode) (startpos pos : Nat) (newitem : HNode)
    (endpos : Nat) : List HNode :=
  siftupF (endpos - pos) heap startpos pos newitem endpos

/-- CPython `heapq.heappush`: append, then `_siftdown(heap, 0, len(heap)-1)`
(whose `newitem = heap[len(heap)-1]` is the pushed item). -/
def heappush (heap : List HNode) (item : HNode) : List HNode :=
  siftdownAux (heap ++ [item]) 0 heap.length item

/-- CPython `heapq.heappop`: remove the last element; if the heap is still
nonempty, save `heap[0]` as the return value, move the last element into
slot `0` and `_siftup(heap, 0)`. -/
def heappop (heap : List HNode) : Option (HNode × List HNode) :=
  match heap.getLast? with
  | none => none
  | some lastelt =>
    if heap.dropLast.isEmpty then some (lastelt, [])
    else some (heap.dropLast.getD 0 default,
      siftupAux (heap.dropLast.set 0 lastelt) 0 0 lastelt heap.dropLast.length)

/-! ## Huffman tree construction (`build_huffman_tree_and_codes`) -/

/-- The merge loop (huffman.py lines 65-78): while more than one node
remains, pop the two lowest-weight nodes, merge them into an internal node
whose weight is the sum, and push it back; the root is `priority_queue[0]`.
The recursion is bounded by `fuel`, always called with
`fuel = heap.length`; each iteration removes two nodes and pushes one, so
the fuel (which then always equals the heap length) never runs out before
the loop condition `len > 1` fails, and the fuel-exhausted result is the
loop exit. -/
def buildLoopF : Nat → List HNode → Option HNode
  | 0, heap => heap.head?
  | fuel + 1, heap =>
    if heap.length ≤ 1 then heap.head?
    else
      match heappop heap with
      | none => none
      | some (left, h2) =>
        match heappop h2 with
        | none => none
        | some (right, h3) =>
          buildLoopF fuel (heappush h3 (.node (left.hfreq + right.hfreq) left right))

/-- The merge loop, with the fuel instantiated. -/
def buildLoop (heap : List HNode) : Option HNode :=
  buildLoopF heap.length heap

/-- `generate_codes_recursive` (huffman.py lines 85-97): depth-first
traversal accumulating the code (`'0' = false` descending left, `'1' = true`
descending right); a leaf records its accumulated code.  Internal nodes built
by the merge loop always have both children, so the `if node.left:` /
`if node.right:` guards are always taken. -/
def generateCodes : HNode → List Bool → List (Nat × List Bool)
  | .leaf b _, acc => [(b, acc)]
  | .node _ l r, acc =>
    generateCodes l (acc ++ [false]) ++ generateCodes r (acc ++ [true])

/-- `build_huffman_tree_and_codes(frequency)`: one leaf per `(byte, count)`
item pushed in dict order; the empty dict yields `(None, {})`; a single item
yields that node as root with the explicit code `'0'`; otherwise run the
merge loop and generate codes from the root. -/
def buildHuffman (freqL : List (Nat × Nat)) : Option HNode × List (Nat × List Bool) :=
  let pq := freqL.foldl (fun h kv => heappush h (.leaf kv.1 kv.2)) []
  if pq.isEmpty then (none, [])
  else if pq.length = 1 then
    (pq.head?, [((pq.headD default).hbyte.getD 0, [false])])
  else
    match buildLoop pq with
    | none => (none, [])
    | some root => (some root, generateCodes root [])

/-! ## Frequency counting (`calculate_frequency`) -/

/-- One byte through the frequency dict
(`frequency[b] = frequency.get(b, 0) + 1`): a CPython dict preserves
insertion order, so it is an association list where a new key is appended
and an existing key is bumped in place. -/
def bump : List (Nat × Nat) → Nat → List (Nat × Nat)
  | [], b => [(b, 1)]
  | (k, c) :: rest, b =>
    if k = b then (k, c + 1) :: rest else (k, c) :: bump rest b

/-- `calculate_frequency` over an in-memory byte buffer. -/
def freqList (data : List Nat) : List (Nat × Nat) :=
  data.foldl bump []

/-! ## Huffman compression (`compress_file`) -/

/-- `compress_file` minus the filesystem.  `none` models every abort path of
the Python function: empty input (empty frequency dict), a code-table miss
(`KeyError`), and an entry that does not fit its header field
(`to_bytes(1)` / `to_bytes(4)` raise `OverflowError`).  The blob is 1
padding byte, the 2-byte entry count, the 5-byte `(symbol, count)` entries
in dict order, then the packed payload. -/
def huffCompress (data : List Nat) : Option (List Nat) :=
  let freq := freqList data
  if freq.isEmpty then none
  else
    let table := (buildHuffman freq).2
    if data.any (fun b => (table.lookup b).isNone) then none
    else if freq.any (fun kv => decide (256 ≤ kv.1) || decide (2 ^ 32 ≤ kv.2)) then
      none
    else
      let pb := packBits (data.flatMap (fun b => (table.lookup b).getD []))
      some ([pb.2] ++ toBytesBE freq.length 2 ++
        freq.flatMap (fun kv => toBytesBE kv.1 1 ++ toBytesBE kv.2 4) ++ pb.1)

/-! ## Huffman decompression (`decompress_file`) -/

/-- The bits of one payload byte processed by the decoder:
`bit = (byte_value >> (7 - i)) & 1` for `i` in `range(bits_to_process)`
(an empty range when the declared padding makes the count non-positive). -/
def byteBits (v nbits : Nat) : List Bool :=
  (List.range nbits).map (fun i => v.testBit (7 - i))

/-- Outcome of the per-byte bit loop: crash with the bytes already written,
or the node / output / count state at the end of the byte. -/
inductive HInner
  | crash (written : List Nat)
  | cont (cur : HNode) (out : List Nat) (count : Nat)
deriving DecidableEq, Repr

/-- The per-byte bit loop of `decompress_file` (huffman.py lines 240-264):
descend left on `0` and right on `1`; on reaching a leaf, write its byte,
reset to the root, and break once the declared total is reached (discarding
the rest of the byte).  Descending from a leaf sets `current_node = None`
and the following `current_node.byte` raises `AttributeError`; `crash`
models that exception, carrying the bytes already written. -/
def huffInner (root : HNode) : HNode → List Bool → List Nat → Nat → Nat → HInner
  | cur, [], out, count, _ => .cont cur out count
  | cur, bit :: bs, out, count, total =>
    match cur with
    | .leaf _ _ => .crash out
    | .node _ l r =>
      match (if bit then r else l) with
      | .leaf b _ =>
        if total ≤ count + 1 then .cont root (out ++ [b]) (count + 1)
        else huffInner root root bs (out ++ [b]) (count + 1) total
      | .node f cl cr => huffInner root (.node f cl cr) bs out count total

/-- Final state of the decoder loop: the crash, or the written bytes and the
decoded count when the loop exits (total reached or payload exhausted). -/
inductive HLoopRes
  | crash (written : List Nat)
  | finished (out : List Nat) (count : Nat)
deriving DecidableEq, Repr

/-- The outer `while decoded_byte_count < total_size` loop of
`decompress_file`: read one payload byte at a time; the last byte of the
file (detected with `peek`) is processed without its declared padding bits;
stop at end of file. -/
def huffLoop (root : HNode) (padding total : Nat) :
    List Nat → HNode → List Nat → Nat → HLoopRes
  | [], _, out, count => .finished out count
  | v :: rest, cur, out, count =>
    if total ≤ count then .finished out count
    else
      match huffInner root cur
          (byteBits v (if rest.isEmpty then 8 - padding else 8)) out count total with
      | .crash w => .crash w
      | .cont cur' out' count' => huffLoop root padding total rest cur' out' count'

/-- Read `numUnique` frequency-table entries of 5 bytes each (1-byte symbol
value, 4-byte big-endian count), in order; `none` models the two truncation
error returns. -/
def readEntries : Nat → List Nat → Option (List (Nat × Nat) × List Nat)
  | 0, bytes => some ([], bytes)
  | n + 1, bytes =>
    if 5 ≤ bytes.length then
      match readEntries n (bytes.drop 5) with
      | none => none
      | some (entries, rest) =>
        some ((bytes.getD 0 0, fromBytesBE ((bytes.drop 1).take 4)) :: entries, rest)
    else none

/-- `frequency[byte_int] = count` on a dict: overwrite in place, or append. -/
def dictSet : List (Nat × Nat) → Nat → Nat → List (Nat × Nat)
  | [], k, v => [(k, v)]
  | (k', v') :: rest, k, v =>
    if k' = k then (k, v) :: rest else (k', v') :: dictSet rest k v

/-- Result of `decompress_file`, tracking what has been written to the
output file (which is opened for writing — hence truncated — at the very
start of the call): header-parse and tree-rebuild errors return with an
empty output file; a mid-payload crash or a final count mismatch leave the
partial decode written. -/
inductive HuffResult
  | ok (written : List Nat)
  | emptyOrTruncated
  | headerTruncated
  | tableTruncated
  | treeFail
  | crash (written : List Nat)
  | mismatch (written : List Nat) (found expected : Nat)
deriving DecidableEq, Repr

/-- `decompress_file` minus the filesystem: read the 1-byte padding count,
the 2-byte unique-symbol count and the frequency table (summing the raw
counts into `total_size`), rebuild the tree with the same
`build_huffman_tree_and_codes`, and run the bit-walking loop. -/
def huffDecompress (blob : List Nat) : HuffResult :=
  match blob with
  | [] => .emptyOrTruncated
  | padding :: rest =>
    if rest.length < 2 then .headerTruncated
    else
      match readEntries (fromBytesBE (rest.take 2)) (rest.drop 2) with
      | none => .tableTruncated
      | some (entries, payload) =>
        let freq := entries.foldl (fun d kv => dictSet d kv.1 kv.2) []
        let total := (entries.map Prod.snd).sum
        match (buildHuffman freq).1 with
        | none => .treeFail
        | some root =>
          match huffLoop root padding total payload root [] 0 with
          | .crash w => .crash w
          | .finished out count =>
            if count = total then .ok out else .mismatch out count total

/-! ## Derived views used by the proofs (no new behaviour: each is proved
equal to, or an invariant of, the definitions above) -/

/-- The bit sequence the Huffman decoder walks: all eight bits of every
payload byte except the last one, whose declared padding is excluded —
exactly the `bits_to_process` choice of `decompress_file`. -/
def bitsOfPayload (padding : Nat) : List Nat → List Bool
  | [] => []
  | v :: rest =>
    byteBits v (if rest.isEmpty then 8 - padding else 8) ++ bitsOfPayload padding rest

/-- The Huffman decoding walk over the payload bits as one flat sequence,
stopping once `total` symbols are decoded; `huffLoop` processes the same
bits byte by byte and agrees with this (proved in `huffLoop_eq_decodeFlat`). -/
def decodeFlat (root : HNode) (total : Nat) :
    HNode → List Bool → List Nat → Nat → HLoopRes
  | _, [], out, count => .finished out count
  | cur, bit :: bs, out, count =>
    if total ≤ count then .finished out count
    else
      match cur with
      | .leaf _ _ => .crash out
      | .node _ l r =>
        match (if bit then r else l) with
        | .leaf b _ => decodeFlat root total root bs (out ++ [b]) (count + 1)
        | .node f cl cr => decodeFlat root total (.node f cl cr) bs out count

/-- The multiset of leaf byte values of a Huffman tree, in traversal order. -/
def hleaves : HNode → List Nat
  | .leaf b _ => [b]
  | .node _ l r => hleaves l ++ hleaves r

/-- The CPython binary-heap invariant: every element is `≤` (by weight) its
two children at indices `2i+1` and `2i+2`. -/
def heapInv (l : List HNode) : Prop :=
  ∀ j, j < l.length → 0 < j →
    (l.getD ((j - 1) / 2) default).hfreq ≤ (l.getD j default).hfreq

instance (l : List HNode) : Decidable (heapInv l) := by
  unfold heapInv
  infer_instance

/-! # Proof development -/

/-! ## The window scan of `find_longest_match` -/

lemma commonRunLen_le_left (a b : List Nat) : commonRunLen a b ≤ a.length := by
  induction a generalizing b with
  | nil => simp [commonRunLen]
  | cons x as ih =>
    cases b with
    | nil => simp [commonRunLen]
    | cons y bs =>
      simp only [commonRunLen]
      split
      · simpa using ih bs
      · simp

lemma commonRunLen_le_right (a b : List Nat) : commonRunLen a b ≤ b.length := by
  induction a generalizing b with
  | nil => simp [commonRunLen]
  | cons x as ih =>
    cases b with
    | nil => simp [commonRunLen]
    | cons y bs =>
      simp only [commonRunLen]
      split
      · simpa using ih bs
      · simp

lemma commonRunLen_eq (a b : List Nat) (j : Nat) (hj : j < commonRunLen a b) :
    a.getD j 0 = b.getD j 0 := by
  induction a generalizing b j with
  | nil => simp [commonRunLen] at hj
  | cons x as ih =>
    cases b with
    | nil => simp [commonRunLen] at hj
    | cons y bs =>
      simp only [commonRunLen] at hj
      split at hj
      · cases j with
        | zero => simpa [List.getD]
        | succ j' => simpa [List.getD] using ih bs j' (by omega)
      · omega

/-- Invariant of the left-to-right scan after the first `k` window indices:
either nothing matched yet and the best is still `(0, 0)`, or the best is
the first index achieving the (strictly positive) maximum run length among
the first `k`. -/
lemma scanFoldl_spec (w la : List Nat) (k : Nat) :
    ((List.range k).foldl (scanStep w la) (0, 0) = (0, 0) ∧
        ∀ i < k, commonRunLen (w.drop i) la = 0) ∨
      ∃ i0 < k, 0 < commonRunLen (w.drop i0) la ∧
        (List.range k).foldl (scanStep w la) (0, 0) =
          (w.length - i0, commonRunLen (w.drop i0) la) ∧
        (∀ i < i0, commonRunLen (w.drop i) la < commonRunLen (w.drop i0) la) ∧
        ∀ i < k, commonRunLen (w.drop i) la ≤ commonRunLen (w.drop i0) la := by
  induction k with
  | zero => left; exact ⟨rfl, by omega⟩
  | succ n ih =>
    rw [List.range_succ, List.foldl_append, List.foldl_cons, List.foldl_nil]
    rcases ih with ⟨hb, hall⟩ | ⟨i0, hi0, hpos, hb, hfirst, hmax⟩
    · rw [hb]
      by_cases hn : 0 < commonRunLen (w.drop n) la
      · right
        refine ⟨n, Nat.lt_succ_self n, hn, by simp [scanStep, hn], ?_, ?_⟩
        · intro i hi; have := hall i hi; omega
        · intro i hi
          have h2 : i < n ∨ i = n := by omega
          rcases h2 with h2 | h2
          · have := hall i h2; omega
          · subst h2; exact le_refl _
      · left
        refine ⟨by simp [scanStep]; omega, ?_⟩
        intro i hi
        have h2 : i < n ∨ i = n := by omega
        rcases h2 with h2 | h2
        · exact hall i h2
        · subst h2; omega
    · rw [hb]
      by_cases hn : commonRunLen (w.drop i0) la < commonRunLen (w.drop n) la
      · right
        refine ⟨n, Nat.lt_succ_self n, by omega, by simp [scanStep, hn], ?_, ?_⟩
        · intro i hi
          exact lt_of_le_of_lt (hmax i (by omega)) hn
        · intro i hi
          have h2 : i < n ∨ i = n := by omega
          rcases h2 with h2 | h2
          · exact le_trans (hmax i h2) (le_of_lt hn)
          · subst h2; exact le_refl _
      · right
        refine ⟨i0, by omega, hpos, by simp [scanStep, hn], hfirst, ?_⟩
        intro i hi
        have h2 : i < n ∨ i = n := by omega
        rcases h2 with h2 | h2
        · exact hmax i h2
        · subst h2; omega

/-- Characterization of a successful `find_longest_match`: the returned pair
is the run at the first window index attaining the maximum run length, with
the distance measured from the end of the window. -/
lemma findLongestMatch_spec (w la : List Nat) (d l : Nat)
    (h : findLongestMatch w la = (d, l)) (h3 : MIN_MATCH_LENGTH ≤ l) :
    ∃ i0, i0 < w.length ∧ d = w.length - i0 ∧ l = commonRunLen (w.drop i0) la ∧
      (∀ i < i0, commonRunLen (w.drop i) la < l) ∧
      ∀ i < w.length, commonRunLen (w.drop i) la ≤ l := by
  simp only [findLongestMatch] at h
  split at h
  · injection h with hd hl; simp only [MIN_MATCH_LENGTH] at h3; omega
  · rcases scanFoldl_spec w la w.length with ⟨hb, _⟩ | ⟨i0, hi0, hpos, hb, hfirst, hmax⟩
    · rw [hb] at h
      split at h <;>
        (injection h with hd hl; simp only [MIN_MATCH_LENGTH] at h3; omega)
    · rw [hb] at h
      split at h
      · injection h with hd hl; simp only [MIN_MATCH_LENGTH] at h3; omega
      · injection h with hd hl
        subst hd; subst hl
        exact ⟨i0, hi0, rfl, rfl, hfirst, hmax⟩

/-- Numeric bounds and the byte-for-byte match property of a successful
`find_longest_match`: the distance is in `[1, len(window)]`, the length is
at most the distance and at most the lookahead, and the match really does
repeat the window suffix. -/
lemma findLongestMatch_bounds (w la : List Nat) (d l : Nat)
    (h : findLongestMatch w la = (d, l)) (h3 : MIN_MATCH_LENGTH ≤ l) :
    1 ≤ d ∧ d ≤ w.length ∧ l ≤ d ∧ l ≤ la.length ∧
      ∀ j < l, w.getD (w.length - d + j) 0 = la.getD j 0 := by
  obtain ⟨i0, hi0, hd, hl, _, _⟩ := findLongestMatch_spec w la d l h h3
  have hld : l ≤ (w.drop i0).length := hl ▸ commonRunLen_le_left _ _
  rw [List.length_drop] at hld
  have hwi : w.length - d = i0 := by omega
  refine ⟨by omega, by omega, by omega, hl ▸ commonRunLen_le_right _ _, ?_⟩
  intro j hj
  rw [hwi]
  have := commonRunLen_eq (w.drop i0) la j (hl ▸ hj)
  rwa [List.getD_eq_getElem?_getD, List.getElem?_drop, ← List.getD_eq_getElem?_getD] at this

/-- Claim C6: in the LZ77 match search, only a strictly greater match length
replaces the current best candidate, so among equal-length candidates the one
first encountered in the left-to-right window scan (smallest window index,
hence largest distance) is kept: the returned pair is the run at the first
index `i0` attaining the maximum run length, every earlier index has a
strictly smaller run, and no index beats it. -/
theorem C6_scan_tiebreak_first_kept (window lookahead : List Nat) (d l : Nat)
    (h : findLongestMatch window lookahead = (d, l)) (h3 : MIN_MATCH_LENGTH ≤ l) :
    ∃ i0, i0 < window.length ∧ d = window.length - i0 ∧
      commonRunLen (window.drop i0) lookahead = l ∧
      (∀ i < i0, commonRunLen (window.drop i) lookahead < l) ∧
      ∀ i < window.length, commonRunLen (window.drop i) lookahead ≤ l := by
  obtain ⟨i0, hi0, hd, hl, hfirst, hmax⟩ := findLongestMatch_spec window lookahead d l h h3
  exact ⟨i0, hi0, hd, hl.symm, hfirst, hmax⟩

/-- Witness for C6 at a window with two equal-length candidates (indices 0
and 3, both of run length 3): the first one is kept, giving the largest
distance 6. -/
theorem C6_scan_tiebreak_first_kept_witness :
    ∃ i0, i0 < ([1, 2, 3, 1, 2, 3] : List Nat).length ∧
      6 = ([1, 2, 3, 1, 2, 3] : List Nat).length - i0 ∧
      commonRunLen (([1, 2, 3, 1, 2, 3] : List Nat).drop i0) [1, 2, 3, 9] = 3 ∧
      (∀ i < i0, commonRunLen (([1, 2, 3, 1, 2, 3] : List Nat).drop i) [1, 2, 3, 9] < 3) ∧
      ∀ i < ([1, 2, 3, 1, 2, 3] : List Nat).length,
        commonRunLen (([1, 2, 3, 1, 2, 3] : List Nat).drop i) [1, 2, 3, 9] ≤ 3 :=
  C6_scan_tiebreak_first_kept [1, 2, 3, 1, 2, 3] [1, 2, 3, 9] 6 3 (by decide) (by decide)

/-! ## Tokens emitted by the encoder -/

lemma encodeFromF_match_le (data : List Nat) :
    ∀ fuel i t, t ∈ encodeFromF data i fuel → MIN_MATCH_LENGTH ≤ t.2.1 →
      t.2.1 ≤ t.1 := by
  intro fuel
  induction fuel with
  | zero => intro i t ht; simp [encodeFromF] at ht
  | succ n ih =>
    intro i t ht h3
    simp only [encodeFromF] at ht
    split at ht
    · split at ht
      · rcases List.mem_cons.1 ht with rfl | hmem
        · obtain ⟨_, _, hle, _, _⟩ :=
            findLongestMatch_bounds ((data.take i).drop (i - SEARCH_WINDOW_SIZE))
              ((data.drop i).take LOOKAHEAD_SIZE) _ _ rfl h3
          exact hle
        · exact ih _ t hmem h3
      · rcases List.mem_cons.1 ht with rfl | hmem
        · simp [MIN_MATCH_LENGTH] at h3
        · exact ih _ t hmem h3
    · simp at ht

/-- Claim C10: every match token emitted by the LZ77 compressor satisfies
`length ≤ distance` — the candidate length is capped by the remaining window
size from the match start, so no emitted back-reference is self-overlapping
(a token is a match token exactly when its length field is at least
`MIN_MATCH_LENGTH`; literal tokens carry `(0, 0)`). -/
theorem C10_no_self_overlap (data : List Nat) (t : Nat × Nat × Option Nat)
    (ht : t ∈ encodeLZ77 data) (h3 : MIN_MATCH_LENGTH ≤ t.2.1) : t.2.1 ≤ t.1 :=
  encodeFromF_match_le data _ 0 t ht h3

/-- Witness for C10: the match token `(4, 4, none)` emitted for `ABABABAB`. -/
theorem C10_no_self_overlap_witness :
    ((4, 4, none) : Nat × Nat × Option Nat) ∈ encodeLZ77 [65, 66, 65, 66, 65, 66, 65, 66] ∧
      ((4, 4, none) : Nat × Nat × Option Nat).2.1 ≤ ((4, 4, none) : Nat × Nat × Option Nat).1 :=
  ⟨by decide, C10_no_self_overlap [65, 66, 65, 66, 65, 66, 65, 66] (4, 4, none)
    (by decide) (by decide)⟩

/-! ## The corrupt-distance check of the LZ77 decoder -/

/-- Claim C7: whenever the LZ77 decoder has parsed a match token whose
distance is `0` or exceeds the number of bytes decoded so far, the loop
aborts with the corrupt-stream error (the `ValueError` of
`decompress_lz77_file`), before copying anything. -/
theorem C7_corrupt_distance_fatal (bytes : List Nat)
    (maxBits origSize pos : Nat) (out : List Nat) (count dist lcode : Nat)
    (hc : count < origSize)
    (hflag : readBits bytes maxBits pos 1 = some 1)
    (hdist : readBits bytes maxBits (pos + 1) 12 = some dist)
    (hlen : readBits bytes maxBits (pos + 13) 4 = some lcode)
    (hlit : count + (lcode + MIN_MATCH_LENGTH) < origSize →
      (readBits bytes maxBits (pos + 17) 8).isSome)
    (hbad : dist = 0 ∨ out.length < dist) :
    lzLoop bytes maxBits origSize pos out count = .corrupt := by
  rw [lzLoop, show origSize - count = (origSize - count - 1) + 1 from by omega]
  by_cases hW : count + (lcode + MIN_MATCH_LENGTH) < origSize
  · obtain ⟨lit, hlit'⟩ := Option.isSome_iff_exists.1 (hlit hW)
    simp [lzLoopF, hc, hflag, hdist, hlen, hW, hlit', hbad, MIN_MATCH_LENGTH] at *
  · simp [lzLoopF, hc, hflag, hdist, hlen, hbad, MIN_MATCH_LENGTH]
    exact fun h' => absurd h' (by simp only [MIN_MATCH_LENGTH] at hW; omega)

/-- Witness for C7: a concrete 12-byte blob whose single match token has
distance `0`; the decoder loop aborts with `corrupt` (and the whole
`decompress_lz77_file` call returns the corrupt-stream failure). -/
theorem C7_corrupt_distance_fatal_witness :
    lzLoop [128, 0, 0] 17 3 0 [] 0 = .corrupt :=
  C7_corrupt_distance_fatal [128, 0, 0] 17 3 0 [] 0 0 0 (by decide) (by decide)
    (by decide) (by decide) (fun h => absurd h (by decide)) (Or.inl rfl)

/-! ## Concrete behaviour at the edge cases -/

/-- Counterexample to claim C1 as stated: at the empty buffer neither codec
produces a blob at all — `compress_file` reports "Could not read file or
file is empty" and `compress_lz77_file` reports "Compression failed: File is
empty." — so `decompress(compress(b)) == b` fails at `b = []` for both
codecs. -/
theorem C1_roundtrip_counterexample :
    huffCompress [] = none ∧ lzCompress [] = none := by decide

/-- Counterexample to claim C3 as stated: Huffman compression of the empty
buffer produces no blob at all (no 3-byte header), and Huffman decompression
of the 3-byte blob `[0, 0, 0]` (padding 0, count 0) fails with the
tree-rebuild error instead of yielding an empty buffer. -/
theorem C3_empty_counterexample :
    huffCompress [] = none ∧ huffDecompress [0, 0, 0] = .treeFail := by decide

/-- Claim C3 amended to the actual behaviour: empty input is rejected by
Huffman compression ("file is empty", no blob is written), and the 3-byte
header blob with zero entries makes decompression fail with "Could not
rebuild Huffman tree" (the root is absent), writing an empty output file,
rather than succeeding with an empty buffer. -/
theorem C3_empty_behavior :
    huffCompress [] = none ∧
      freqList [] = [] ∧
      (buildHuffman []).1 = none ∧
      huffDecompress [0, 0, 0] = .treeFail := by decide

/-- Claim C2, evaluated at the failing input (the code bug): a buffer of 10
copies of byte 65 does get the single-bit code `0` and compresses to the
expected blob, but decompressing that very blob crashes — the decoder walks
`current_node = current_node.left` from the leaf root, reaching `None`, and
the subsequent `current_node.byte` raises `AttributeError` — so no bytes at
all are reproduced. -/
theorem C2_single_symbol_decode_crash :
    (buildHuffman (freqList (List.replicate 10 65))).2 = [(65, [false])] ∧
      huffCompress (List.replicate 10 65) = some [6, 0, 1, 65, 0, 0, 0, 10, 0, 0] ∧
      huffDecompress [6, 0, 1, 65, 0, 0, 0, 10, 0, 0] = .crash [] := by decide

/-- Counterexample to claim C9 as stated: decompressing a truncated Huffman
blob (two symbols of declared count 5 each, but a single payload byte)
reports the decoded-count mismatch error, yet the 8 bytes decoded before the
payload ran out have already been written to the output file — a partial
output is left behind on failure. -/
theorem C9_partial_output_counterexample :
    huffDecompress [0, 0, 2, 65, 0, 0, 0, 5, 66, 0, 0, 0, 5, 0] =
      .mismatch [65, 65, 65, 65, 65, 65, 65, 65] 8 10 := by decide

/-! ## Values of bit strings -/

lemma natOfBits_from (a : Nat) (L : List Bool) :
    L.foldl (fun x b => x * 2 + (if b then 1 else 0)) a =
      a * 2 ^ L.length + natOfBits L := by
  induction L generalizing a with
  | nil => simp [natOfBits]
  | cons b bs ih =>
    rw [List.foldl_cons, ih]
    conv_rhs => rw [natOfBits, List.foldl_cons, ih]
    simp only [List.length_cons, pow_succ]
    ring

lemma natOfBits_append (L M : List Bool) :
    natOfBits (L ++ M) = natOfBits L * 2 ^ M.length + natOfBits M := by
  rw [natOfBits, List.foldl_append, ← natOfBits, natOfBits_from]

lemma natOfBits_singleton (b : Bool) : natOfBits [b] = if b then 1 else 0 := by
  cases b <;> simp [natOfBits]

lemma natOfBits_snoc (P : List Bool) (b : Bool) :
    natOfBits (P ++ [b]) = natOfBits P * 2 + (if b then 1 else 0) := by
  rw [natOfBits_append, natOfBits_singleton]
  simp

lemma natOfBits_lt (L : List Bool) : natOfBits L < 2 ^ L.length := by
  induction L using List.reverseRecOn with
  | nil => simp [natOfBits]
  | append_singleton P b ih =>
    rw [natOfBits_snoc]
    have hlen : (P ++ [b]).length = P.length + 1 := by simp
    rw [hlen, pow_succ]
    have hb : (if b then 1 else 0) < 2 := by split <;> omega
    omega

lemma natOfBits_replicate_false (p : Nat) : natOfBits (List.replicate p false) = 0 := by
  induction p with
  | zero => simp [natOfBits]
  | succ n ih =>
    rw [List.replicate_succ', natOfBits_snoc, ih]
    simp

lemma natOfBits_testBit (L : List Bool) (j : Nat) (hj : j < L.length) :
    (natOfBits L).testBit j = L.getD (L.length - 1 - j) false := by
  induction L using List.reverseRecOn generalizing j with
  | nil => simp at hj
  | append_singleton P b ih =>
    have hlen : (P ++ [b]).length = P.length + 1 := by simp
    rw [natOfBits_snoc, hlen]
    cases j with
    | zero =>
      have hmod : (natOfBits P * 2 + (if b then 1 else 0)) % 2 = if b then 1 else 0 := by
        split <;> omega
      have hg : (P ++ [b]).getD P.length false = b := by
        rw [List.getD_eq_getElem?_getD, List.getElem?_append_right (le_refl _)]
        simp
      rw [Nat.testBit_zero, show P.length + 1 - 1 - 0 = P.length from by omega, hg, hmod]
      cases b <;> simp
    | succ j' =>
      have hj' : j' < P.length := by rw [hlen] at hj; omega
      have hdiv : (natOfBits P * 2 + (if b then 1 else 0)) / 2 = natOfBits P := by
        split <;> omega
      have hg : (P ++ [b]).getD (P.length - 1 - j') false =
          P.getD (P.length - 1 - j') false := by
        rw [List.getD_eq_getElem?_getD, List.getD_eq_getElem?_getD,
          List.getElem?_append_left (by omega)]
      rw [Nat.testBit_succ, hdiv, ih j' hj',
        show P.length + 1 - 1 - (j' + 1) = P.length - 1 - j' from by omega, hg]

lemma natBits_length (v w : Nat) : (natBits v w).length = w := by simp [natBits]

lemma natBits_succ (v w : Nat) : natBits v (w + 1) = v.testBit w :: natBits v w := by
  rw [natBits, natBits, List.range_succ_eq_map, List.map_cons, List.map_map]
  refine congrArg₂ _ (by simp) (List.map_congr_left ?_)
  intro k _
  simp only [Function.comp_apply]
  congr 1
  omega

lemma natOfBits_natBits (v w : Nat) : natOfBits (natBits v w) = v % 2 ^ w := by
  induction w with
  | zero => simp [natBits, natOfBits, Nat.mod_one]
  | succ n ih =>
    rw [natBits_succ, show (v.testBit n :: natBits v n) = [v.testBit n] ++ natBits v n
      from rfl, natOfBits_append, ih, natBits_length]
    have hb : natOfBits [v.testBit n] = v / 2 ^ n % 2 := by
      rw [Nat.testBit_to_div_mod]
      simp only [natOfBits, List.foldl_cons, List.foldl_nil]
      rcases Nat.mod_two_eq_zero_or_one (v / 2 ^ n) with h | h <;> simp [h]
    rw [hb, pow_succ, Nat.mod_mul]
    ring

lemma natOfBits_natBits_of_lt (v w : Nat) (h : v < 2 ^ w) :
    natOfBits (natBits v w) = v := by
  rw [natOfBits_natBits, Nat.mod_eq_of_lt h]

/-! ## The packer writes exactly its input bits -/

lemma packBits_foldl_spec (B : List Bool) :
    B.foldl packStep (0, 0, []) =
      (natOfBits (B.drop (8 * (B.length / 8))), B.length % 8,
        (List.range (B.length / 8)).map (fun j => natOfBits ((B.drop (8 * j)).take 8))) := by
  induction B using List.reverseRecOn with
  | nil => simp [natOfBits]
  | append_singleton P b ih =>
    rw [List.foldl_append, List.foldl_cons, List.foldl_nil, ih]
    simp only [packStep, List.length_append, List.length_cons, List.length_nil]
    by_cases h8 : P.length % 8 = 7
    · rw [if_pos (by omega)]
      have hq : (P.length + 1) / 8 = P.length / 8 + 1 := by omega
      have hlen : 8 * ((P.length + 1) / 8) = P.length + 1 := by omega
      refine Prod.ext ?_ (Prod.ext (by simp; omega) ?_)
      · show (0 : Nat) = _
        rw [hlen, List.drop_eq_nil_of_le (by simp)]
        simp [natOfBits]
      · show _ ++ [_] = _
        rw [hq, List.range_succ, List.map_append, List.map_singleton]
        refine congrArg₂ _ (List.map_congr_left ?_) ?_
        · intro j hj
          rw [List.mem_range] at hj
          rw [List.drop_append_of_le_length (by omega),
            List.take_append_of_le_length (by rw [List.length_drop]; omega)]
        · rw [List.drop_append_of_le_length (by omega)]
          have h7 : (P.drop (8 * (P.length / 8))).length = 7 := by
            rw [List.length_drop]; omega
          rw [List.take_of_length_le (by simp [h7]), natOfBits_snoc]
    · rw [if_neg (by omega)]
      have hq : (P.length + 1) / 8 = P.length / 8 := by omega
      refine Prod.ext ?_ (Prod.ext (by simp; omega) ?_)
      · show _ = natOfBits _
        rw [hq, List.drop_append_of_le_length (by omega), natOfBits_snoc]
      · show _ = List.map _ _
        rw [hq]
        refine List.map_congr_left ?_
        intro j hj
        rw [List.mem_range] at hj
        rw [List.drop_append_of_le_length (by omega),
          List.take_append_of_le_length (by rw [List.length_drop]; omega)]


lemma packBits_pad_lt (B : List Bool) : (packBits B).2 < 8 := by
  simp only [packBits, packBits_foldl_spec]
  split <;> omega

lemma packBits_pad_mod (B : List Bool) : (B.length + (packBits B).2) % 8 = 0 := by
  simp only [packBits, packBits_foldl_spec]
  split <;> omega

/-- The packed bytes are exactly the 8-bit chunks of the input padded with
the padding bits. -/
lemma packBits_bytes_eq (B : List Bool) :
    (packBits B).1 = (List.range ((B.length + (packBits B).2) / 8)).map
      (fun j => natOfBits (((B ++ List.replicate (packBits B).2 false).drop (8 * j)).take 8)) := by
  simp only [packBits, packBits_foldl_spec]
  split
  · rename_i hr
    have hq : (B.length + (8 - B.length % 8)) / 8 = B.length / 8 + 1 := by omega
    rw [hq, List.range_succ, List.map_append, List.map_singleton]
    refine congrArg₂ _ (List.map_congr_left ?_) ?_
    · intro j hj
      rw [List.mem_range] at hj
      rw [List.drop_append_of_le_length (by omega),
        List.take_append_of_le_length (by rw [List.length_drop]; omega)]
    · rw [List.drop_append_of_le_length (by omega)]
      have hlp : (B.drop (8 * (B.length / 8))).length = B.length % 8 := by
        rw [List.length_drop]; omega
      rw [List.take_of_length_le (by simp [hlp, List.length_replicate]; omega),
        natOfBits_append, natOfBits_replicate_false]
      simp
  · rename_i hr
    simp only [List.replicate_zero, List.append_nil, Nat.add_zero]

lemma packBits_length (B : List Bool) :
    (packBits B).1.length = (B.length + (packBits B).2) / 8 := by
  rw [packBits_bytes_eq]
  simp

lemma packBits_maxBits (B : List Bool) :
    (packBits B).1.length * 8 - (packBits B).2 = B.length := by
  have h1 := packBits_pad_lt B
  have h2 := packBits_pad_mod B
  rw [packBits_length]
  omega

lemma packBits_bitAt (B : List Bool) (k : Nat) (hk : k < B.length) :
    bitAt (packBits B).1 k = B.getD k false := by
  have hpadlt := packBits_pad_lt B
  have hmod := packBits_pad_mod B
  set pad := (packBits B).2 with hpd
  set C := B ++ List.replicate pad false with hC
  have hCk : k < C.length := by rw [hC]; simp; omega
  have hClen : C.length = B.length + pad := by rw [hC]; simp
  have hkq : k / 8 < C.length / 8 := by
    rw [hClen]
    omega
  rw [bitAt, packBits_bytes_eq, ← hC, ← hClen]
  have hgd : ((List.range (C.length / 8)).map
      (fun j => natOfBits ((C.drop (8 * j)).take 8))).getD (k / 8) 0 =
      natOfBits ((C.drop (8 * (k / 8))).take 8) := by
    rw [List.getD_eq_getElem?_getD, List.getElem?_map, List.getElem?_range hkq]
    rfl
  rw [hgd]
  have hlen8 : ((C.drop (8 * (k / 8))).take 8).length = 8 := by
    rw [List.length_take, List.length_drop]
    rw [hClen]
    omega
  have ht := natOfBits_testBit ((C.drop (8 * (k / 8))).take 8) (7 - k % 8)
    (by rw [hlen8]; omega)
  rw [ht, hlen8, show (8 - 1 - (7 - k % 8)) = k % 8 from by omega]
  rw [List.getD_eq_getElem?_getD, List.getD_eq_getElem?_getD,
    List.getElem?_take, if_pos (show k % 8 < 8 from by omega), List.getElem?_drop,
    show 8 * (k / 8) + k % 8 = k from by omega, hC,
    List.getElem?_append_left (by omega)]

lemma packBits_bytes_lt (B : List Bool) (v : Nat) (hv : v ∈ (packBits B).1) :
    v < 256 := by
  rw [packBits_bytes_eq] at hv
  obtain ⟨j, _, rfl⟩ := List.mem_map.1 hv
  calc natOfBits _ < 2 ^ (List.take 8 _).length := natOfBits_lt _
  _ ≤ 2 ^ 8 := Nat.pow_le_pow_right (by omega) (by simp [List.length_take])
  _ = 256 := by norm_num

/-! ## Reading back from the packed bytes -/

lemma readBitsVal_eq_natOfBits (bytes : List Nat) (pos width : Nat) :
    readBitsVal bytes pos width =
      natOfBits ((List.range width).map (fun k => bitAt bytes (pos + k))) := by
  rw [readBitsVal, natOfBits, List.foldl_map]

lemma map_getD_range_eq_slice (B : List Bool) (pos width : Nat)
    (h : pos + width ≤ B.length) :
    (List.range width).map (fun k => B.getD (pos + k) false) =
      (B.drop pos).take width := by
  refine List.ext_getElem (by simp [List.length_take, List.length_drop]; omega) ?_
  intro i h1 h2
  simp only [List.length_map, List.length_range] at h1
  simp only [List.getElem_map, List.getElem_range, List.getElem_take, List.getElem_drop]
  rw [List.getD_eq_getElem?_getD, List.getElem?_eq_getElem (by omega)]
  rfl

/-- Reading `width` bits at absolute position `pos` from the packed form of
`B` (with the decoder's `MAX_BITS` equal to the number of real bits)
returns exactly the value of the corresponding slice of `B`. -/
lemma readBits_packBits (B : List Bool) (pos width : Nat)
    (h : pos + width ≤ B.length) :
    readBits (packBits B).1 B.length pos width =
      some (natOfBits ((B.drop pos).take width)) := by
  rw [readBits, if_neg (by omega), readBitsVal_eq_natOfBits]
  congr 1
  rw [← map_getD_range_eq_slice B pos width h]
  refine congrArg _ (List.map_congr_left ?_)
  intro k hkm
  rw [List.mem_range] at hkm
  exact packBits_bitAt B (pos + k) (by omega)

/-- Bit exhaustion: reading past the real bits returns `None`. -/
lemma readBits_packBits_none (B : List Bool) (pos width : Nat)
    (h : B.length < pos + width) :
    readBits (packBits B).1 B.length pos width = none := by
  rw [readBits, if_pos (by omega)]



/-! ## Big-endian serialization round trip -/

lemma fromBytesBE_from (a : Nat) (L : List Nat) :
    L.foldl (fun x b => x * 256 + b) a = a * 256 ^ L.length + fromBytesBE L := by
  induction L generalizing a with
  | nil => simp [fromBytesBE]
  | cons b bs ih =>
    rw [List.foldl_cons, ih]
    conv_rhs => rw [fromBytesBE, List.foldl_cons, ih]
    simp only [List.length_cons, pow_succ]
    ring

lemma toBytesBE_length (v w : Nat) : (toBytesBE v w).length = w := by
  simp [toBytesBE]

lemma toBytesBE_succ (v w : Nat) :
    toBytesBE v (w + 1) = (v / 2 ^ (8 * w) % 256) :: toBytesBE v w := by
  rw [toBytesBE, toBytesBE, List.range_succ_eq_map, List.map_cons, List.map_map]
  refine congrArg₂ _ (by simp) (List.map_congr_left ?_)
  intro k _
  simp only [Function.comp_apply]
  exact congrArg (fun e => v / 2 ^ (8 * e) % 256)
    (show w + 1 - 1 - Nat.succ k = w - 1 - k from by omega)

lemma fromBytesBE_cons (b : Nat) (L : List Nat) :
    fromBytesBE (b :: L) = b * 256 ^ L.length + fromBytesBE L := by
  have h0 : fromBytesBE (b :: L) = L.foldl (fun x c => x * 256 + c) (0 * 256 + b) := rfl
  rw [h0, fromBytesBE_from, show (0 : Nat) * 256 + b = b from by omega]

lemma fromBytesBE_toBytesBE (v w : Nat) :
    fromBytesBE (toBytesBE v w) = v % 2 ^ (8 * w) := by
  induction w with
  | zero => simp [toBytesBE, fromBytesBE, Nat.mod_one]
  | succ n ih =>
    rw [toBytesBE_succ, fromBytesBE_cons, ih, toBytesBE_length]
    have h256 : (256 : Nat) ^ n = 2 ^ (8 * n) := by
      rw [show (256 : Nat) = 2 ^ 8 from by norm_num, ← pow_mul]
    have hsplit : v % 2 ^ (8 * (n + 1)) =
        v % 2 ^ (8 * n) + 2 ^ (8 * n) * (v / 2 ^ (8 * n) % 256) := by
      rw [show 8 * (n + 1) = 8 * n + 8 from by ring, pow_add,
        show (2 : Nat) ^ 8 = 256 from by norm_num, Nat.mod_mul]
    rw [hsplit, h256]
    ring

lemma fromBytesBE_toBytesBE_of_lt (v w : Nat) (h : v < 2 ^ (8 * w)) :
    fromBytesBE (toBytesBE v w) = v := by
  rw [fromBytesBE_toBytesBE, Nat.mod_eq_of_lt h]

/-! ## List index helpers for the round trips -/

lemma take_snoc_getD (data : List Nat) (i : Nat) (hi : i < data.length) :
    data.take i ++ [data.getD i 0] = data.take (i + 1) := by
  rw [List.take_succ, List.getD_eq_getElem?_getD, List.getElem?_eq_getElem hi]
  rfl

lemma getD_take_drop (data : List Nat) (i ws idx : Nat) (h1 : ws + idx < i) :
    ((data.take i).drop ws).getD idx 0 = data.getD (ws + idx) 0 := by
  rw [List.getD_eq_getElem?_getD, List.getD_eq_getElem?_getD, List.getElem?_drop,
    List.getElem?_take, if_pos h1]

lemma getD_drop_take (data : List Nat) (i n j : Nat) (hjn : j < n) :
    ((data.drop i).take n).getD j 0 = data.getD (i + j) 0 := by
  rw [List.getD_eq_getElem?_getD, List.getD_eq_getElem?_getD, List.getElem?_take,
    if_pos hjn, List.getElem?_drop]

/-! ## The LZ77 copy loop reproduces the matched bytes -/

lemma copyLoop_take (data : List Nat) (d : Nat) :
    ∀ l i, 1 ≤ d → d ≤ i → i + l ≤ data.length →
      (∀ j < l, data.getD (i - d + j) 0 = data.getD (i + j) 0) →
      copyLoop data.length l (data.take i) (i - d) i = (data.take (i + l), i + l) := by
  intro l
  induction l with
  | zero => intro i _ _ _ _; simp [copyLoop]
  | succ n ih =>
    intro i hd1 hdi hil hmatch
    rw [copyLoop, if_neg (by omega)]
    have hgd : (data.take i).getD (i - d) 0 = data.getD i 0 := by
      rw [List.getD_eq_getElem?_getD, List.getElem?_take, if_pos (by omega),
        ← List.getD_eq_getElem?_getD]
      have h0 := hmatch 0 (by omega)
      simpa using h0
    rw [hgd, take_snoc_getD data i (by omega)]
    have hrec := ih (i + 1) hd1 (by omega) (by omega) ?_
    · rw [show i - d + 1 = i + 1 - d from by omega, hrec,
        show i + 1 + n = i + (n + 1) from by ring]
    · intro j hj
      have hm := hmatch (j + 1) (by omega)
      rw [show i - d + (j + 1) = i + 1 - d + j from by omega] at hm
      rw [show i + (j + 1) = i + 1 + j from by omega] at hm
      exact hm


/-! ## Fuel invariance of the encoder loop -/

lemma encodeFromF_fuel (data : List Nat) :
    ∀ f1 f2 i, data.length - i ≤ f1 → data.length - i ≤ f2 →
      encodeFromF data i f1 = encodeFromF data i f2 := by
  intro f1
  induction f1 with
  | zero =>
    intro f2 i h1 h2
    cases f2 with
    | zero => rfl
    | succ m =>
      rw [encodeFromF, encodeFromF]
      rw [if_neg (by omega)]
  | succ k ih =>
    intro f2 i h1 h2
    cases f2 with
    | zero =>
      rw [encodeFromF, encodeFromF]
      rw [if_neg (by omega)]
    | succ m =>
      rw [encodeFromF, encodeFromF]
      by_cases hlt : i < data.length
      · rw [if_pos hlt, if_pos hlt]
        simp only
        split
        · rename_i hml
          refine congrArg _ (ih m _ ?_ ?_) <;>
            · simp only [MIN_MATCH_LENGTH] at hml
              split <;> omega
        · exact congrArg _ (ih m _ (by omega) (by omega))
      · rw [if_neg hlt, if_neg hlt]

/-! ## Sequential field reads from the packed stream -/

lemma readBits_of_drop (B : List Bool) (pos : Nat) (L rest : List Bool) (w : Nat)
    (hpos : pos ≤ B.length) (hdrop : B.drop pos = L ++ rest) (hw : L.length = w) :
    readBits (packBits B).1 B.length pos w = some (natOfBits L) ∧
      B.drop (pos + w) = rest ∧ pos + w ≤ B.length := by
  have hlen : pos + w ≤ B.length := by
    have hdl := congrArg List.length hdrop
    rw [List.length_drop, List.length_append, hw] at hdl
    omega
  refine ⟨?_, ?_, hlen⟩
  · rw [readBits_packBits B pos w hlen]
    congr 1
    rw [hdrop, ← hw, List.take_left]
  · have hdd : B.drop (pos + w) = (B.drop pos).drop w := by
      rw [List.drop_drop]
    rw [hdd, hdrop, ← hw, List.drop_left]


/-! ## The LZ77 decoder loop inverts the encoder -/

lemma lzLoopF_roundtrip (data : List Nat) (hbytes : ∀ b ∈ data, b < 256) :
    ∀ fuel i pos, i ≤ data.length → data.length - i ≤ fuel →
      pos ≤ (lzBits data).length →
      (lzBits data).drop pos = (encodeFrom data i).flatMap tokenBits →
      lzLoopF (packBits (lzBits data)).1 (lzBits data).length data.length pos
        (data.take i) i fuel = .done data data.length (lzBits data).length := by
  intro fuel
  induction fuel with
  | zero =>
    intro i pos hi hfu hpos hdrop
    have hieq : i = data.length := by omega
    subst hieq
    have hemp : encodeFrom data data.length = [] := by
      rw [encodeFrom, Nat.sub_self]
      rfl
    rw [hemp, List.flatMap_nil] at hdrop
    have hpe : pos = (lzBits data).length := by
      have hle := List.drop_eq_nil_iff_le.1 hdrop
      omega
    rw [lzLoopF, List.take_length, hpe]
  | succ n ih =>
    intro i pos hi hfu hpos hdrop
    by_cases hieq : i = data.length
    · subst hieq
      have hemp : encodeFrom data data.length = [] := by
        rw [encodeFrom, Nat.sub_self]
        rfl
      rw [hemp, List.flatMap_nil] at hdrop
      have hpe : pos = (lzBits data).length := by
        have hle := List.drop_eq_nil_iff_le.1 hdrop
        omega
      rw [lzLoopF, if_neg (by omega), List.take_length, hpe]
    · have hilt : i < data.length := by omega
      have hstep : encodeFrom data i = encodeFromF data i ((data.length - i - 1) + 1) := by
        rw [encodeFrom]
        exact congrArg _ (by omega)
      rw [hstep] at hdrop
      rcases hdl : findLongestMatch ((data.take i).drop (i - SEARCH_WINDOW_SIZE))
          ((data.drop i).take LOOKAHEAD_SIZE) with ⟨d, l⟩
      simp only [encodeFromF, if_pos hilt, hdl] at hdrop
      have hti : (data.take i).length = i := by
        rw [List.length_take]
        omega
      have hwlen : ((data.take i).drop (i - SEARCH_WINDOW_SIZE)).length =
          i - (i - SEARCH_WINDOW_SIZE) := by
        rw [List.length_drop, hti]
      have hlalen : ((data.drop i).take LOOKAHEAD_SIZE).length =
          min LOOKAHEAD_SIZE (data.length - i) := by
        rw [List.length_take, List.length_drop]
      by_cases hml : MIN_MATCH_LENGTH ≤ l
      · -- match token at position i
        rw [if_pos hml] at hdrop
        obtain ⟨hd1, hdw, hld, hlla, hmatchb⟩ :=
          findLongestMatch_bounds _ _ d l hdl hml
        have hdlei : d ≤ i := by
          rw [hwlen] at hdw
          omega
        have hd4096 : d < 4096 := by
          rw [hwlen] at hdw
          simp only [SEARCH_WINDOW_SIZE] at hdw ⊢
          omega
        have hl15 : l ≤ 15 := by
          rw [hlalen] at hlla
          simp only [LOOKAHEAD_SIZE] at hlla
          omega
        have hil : i + l ≤ data.length := by
          rw [hlalen] at hlla
          omega
        have hl3 : 3 ≤ l := by simpa [MIN_MATCH_LENGTH] using hml
        have hlen_eq : l - MIN_MATCH_LENGTH + MIN_MATCH_LENGTH = l := by
          simp only [MIN_MATCH_LENGTH]
          omega
        have hmdata : ∀ j < l, data.getD (i - d + j) 0 = data.getD (i + j) 0 := by
          intro j hj
          have hm := hmatchb j hj
          rw [hwlen] at hm
          rw [getD_take_drop data i (i - SEARCH_WINDOW_SIZE)
              (i - (i - SEARCH_WINDOW_SIZE) - d + j) (by omega)] at hm
          rw [getD_drop_take data i LOOKAHEAD_SIZE j (by
              rw [hlalen] at hlla
              simp only [LOOKAHEAD_SIZE] at hlla ⊢
              omega)] at hm
          rw [show i - SEARCH_WINDOW_SIZE + (i - (i - SEARCH_WINDOW_SIZE) - d + j) =
              i - d + j from by omega] at hm
          exact hm
        have hcopy := copyLoop_take data d l i hd1 hdlei hil hmdata
        have hdcheck : ¬ (d = 0 ∨ (data.take i).length < d) := by
          rw [hti]
          omega
        by_cases hnext : i + l < data.length
        · -- trailing literal present
          simp only [if_pos hnext] at hdrop
          simp only [List.flatMap_cons, tokenBits, if_pos hml, List.cons_append,
            List.append_assoc] at hdrop
          obtain ⟨hr0, hdrop1, hpos1⟩ :=
            readBits_of_drop (lzBits data) pos [true] _ 1 hpos hdrop rfl
          obtain ⟨hr1, hdrop2, hpos2⟩ :=
            readBits_of_drop (lzBits data) (pos + 1) (natBits d 12) _ 12 hpos1 hdrop1
              (natBits_length d 12)
          rw [show pos + 1 + 12 = pos + 13 from by ring] at hdrop2 hpos2
          obtain ⟨hr2, hdrop3, hpos3⟩ :=
            readBits_of_drop (lzBits data) (pos + 13) (natBits (l - MIN_MATCH_LENGTH) 4)
              _ 4 hpos2 hdrop2 (natBits_length _ 4)
          rw [show pos + 13 + 4 = pos + 17 from by ring] at hdrop3 hpos3
          obtain ⟨hr3, hdrop4, hpos4⟩ :=
            readBits_of_drop (lzBits data) (pos + 17) (natBits (data.getD (i + l) 0) 8)
              _ 8 hpos3 hdrop3 (natBits_length _ 8)
          rw [show pos + 17 + 8 = pos + 25 from by ring] at hdrop4 hpos4
          rw [show natOfBits [true] = 1 from rfl] at hr0
          rw [natOfBits_natBits_of_lt d 12 (by norm_num; omega)] at hr1
          rw [natOfBits_natBits_of_lt (l - MIN_MATCH_LENGTH) 4 (by
            simp only [MIN_MATCH_LENGTH]
            norm_num
            omega)] at hr2
          have hlit256 : data.getD (i + l) 0 < 2 ^ 8 := by
            rw [List.getD_eq_getElem?_getD, List.getElem?_eq_getElem hnext]
            exact lt_of_lt_of_le (hbytes _ (List.getElem_mem hnext)) (by norm_num)
          rw [natOfBits_natBits_of_lt _ 8 hlit256] at hr3
          have hrec := ih (i + l + 1) (pos + 25) (by omega) (by omega) (by omega) ?_
          · simp only [lzLoopF, if_pos hilt, hr0, hr1, hr2, hr3, hlen_eq]
            rw [if_neg (by omega : ¬ (1 : Nat) = 0), if_pos (by omega : i + l < data.length),
              if_neg hdcheck]
            rw [hti, hcopy]
            rw [if_pos (by omega : i + l < data.length)]
            rw [← take_snoc_getD data (i + l) hnext] at hrec
            exact hrec
          · rw [hdrop4]
            rw [encodeFromF_fuel data (data.length - i - 1) (data.length - (i + l + 1))
              (i + l + 1) (by omega) (by omega)]
            rfl
        · -- no trailing literal: the match ends the buffer
          simp only [if_neg hnext] at hdrop
          have hile : i + l = data.length := by omega
          simp only [List.flatMap_cons, tokenBits, if_pos hml, List.cons_append,
            List.append_assoc, List.append_nil] at hdrop
          obtain ⟨hr0, hdrop1, hpos1⟩ :=
            readBits_of_drop (lzBits data) pos [true] _ 1 hpos hdrop rfl
          obtain ⟨hr1, hdrop2, hpos2⟩ :=
            readBits_of_drop (lzBits data) (pos + 1) (natBits d 12) _ 12 hpos1 hdrop1
              (natBits_length d 12)
          rw [show pos + 1 + 12 = pos + 13 from by ring] at hdrop2 hpos2
          obtain ⟨hr2, hdrop3, hpos3⟩ :=
            readBits_of_drop (lzBits data) (pos + 13) (natBits (l - MIN_MATCH_LENGTH) 4)
              _ 4 hpos2 hdrop2 (natBits_length _ 4)
          rw [show pos + 13 + 4 = pos + 17 from by ring] at hdrop3 hpos3
          rw [show natOfBits [true] = 1 from rfl] at hr0
          rw [natOfBits_natBits_of_lt d 12 (by norm_num; omega)] at hr1
          rw [natOfBits_natBits_of_lt (l - MIN_MATCH_LENGTH) 4 (by
            simp only [MIN_MATCH_LENGTH]
            norm_num
            omega)] at hr2
          have hrec := ih (i + l) (pos + 17) (by omega) (by omega) (by omega) ?_
          · simp only [lzLoopF, if_pos hilt, hr0, hr1, hr2, hlen_eq]
            rw [if_neg (by omega : ¬ (1 : Nat) = 0), if_neg (by omega : ¬ i + l < data.length),
              if_neg hdcheck]
            rw [hti, hcopy]
            exact hrec
          · rw [hdrop3]
            rw [show i + l + 0 = i + l from by ring]
            rw [encodeFromF_fuel data (data.length - i - 1) (data.length - (i + l))
              (i + l) (by omega) (by omega)]
            rfl
      · -- literal token at position i
        rw [if_neg hml] at hdrop
        simp only [List.flatMap_cons, tokenBits, List.cons_append, List.append_assoc] at hdrop
        rw [if_neg (by simp [MIN_MATCH_LENGTH])] at hdrop
        simp only [Option.getD_some] at hdrop
        obtain ⟨hr0, hdrop1, hpos1⟩ :=
          readBits_of_drop (lzBits data) pos [false] _ 1 hpos hdrop rfl
        obtain ⟨hr1, hdrop2, hpos2⟩ :=
          readBits_of_drop (lzBits data) (pos + 1) (natBits (data.getD i 0) 8) _ 8 hpos1
            hdrop1 (natBits_length _ 8)
        rw [show pos + 1 + 8 = pos + 9 from by ring] at hdrop2 hpos2
        rw [show natOfBits [false] = 0 from rfl] at hr0
        have hlit256 : data.getD i 0 < 2 ^ 8 := by
          rw [List.getD_eq_getElem?_getD, List.getElem?_eq_getElem hilt]
          exact lt_of_lt_of_le (hbytes _ (List.getElem_mem hilt)) (by norm_num)
        rw [natOfBits_natBits_of_lt _ 8 hlit256] at hr1
        have hrec := ih (i + 1) (pos + 9) (by omega) (by omega) (by omega) ?_
        · simp only [lzLoopF, if_pos hilt, hr0, hr1]
          rw [if_true]
          rw [← take_snoc_getD data i hilt] at hrec
          exact hrec
        · rw [hdrop2]
          rw [encodeFromF_fuel data (data.length - i - 1) (data.length - (i + 1))
            (i + 1) (by omega) (by omega)]
          rfl


/-- Full LZ77 round trip: compressing any nonempty byte buffer (of
representable size) yields a blob that decompresses to exactly the input,
with the decoder loop consuming exactly every payload bit. -/
lemma lz_roundtrip_loop (data : List Nat) (hbytes : ∀ b ∈ data, b < 256) :
    lzLoop (packBits (lzBits data)).1 (lzBits data).length data.length 0 [] 0 =
      .done data data.length (lzBits data).length := by
  rw [lzLoop]
  have h := lzLoopF_roundtrip data hbytes (data.length - 0) 0 0 (by omega) (by omega)
    (by omega) (by rw [List.drop_zero]; rfl)
  simpa using h

lemma lz_roundtrip (data : List Nat) (hne : data ≠ []) (hbytes : ∀ b ∈ data, b < 256)
    (hlen : data.length < 2 ^ 64) :
    ∃ blob, lzCompress data = some blob ∧ lzDecompress blob = .success data := by
  have hcomp : lzCompress data = some (toBytesBE data.length 8 ++
      [(packBits (lzBits data)).2] ++ (packBits (lzBits data)).1) := by
    rw [lzCompress, if_neg hne, if_neg (by omega)]
  refine ⟨_, hcomp, ?_⟩
  have hblen : (toBytesBE data.length 8 ++ [(packBits (lzBits data)).2] ++
      (packBits (lzBits data)).1).length = 9 + (packBits (lzBits data)).1.length := by
    simp [toBytesBE_length]
    omega
  have htake : (toBytesBE data.length 8 ++ [(packBits (lzBits data)).2] ++
      (packBits (lzBits data)).1).take 8 = toBytesBE data.length 8 := by
    rw [List.append_assoc, List.take_append_of_le_length (by simp [toBytesBE_length]),
      List.take_of_length_le (by simp [toBytesBE_length])]
  have hgd8 : (toBytesBE data.length 8 ++ [(packBits (lzBits data)).2] ++
      (packBits (lzBits data)).1).getD 8 0 = (packBits (lzBits data)).2 := by
    rw [List.getD_eq_getElem?_getD,
      List.getElem?_append_left (by simp [toBytesBE_length]),
      List.getElem?_append_right (by simp [toBytesBE_length])]
    simp [toBytesBE_length]
  have hdrop9 : (toBytesBE data.length 8 ++ [(packBits (lzBits data)).2] ++
      (packBits (lzBits data)).1).drop 9 = (packBits (lzBits data)).1 := by
    rw [show (9 : Nat) = (toBytesBE data.length 8 ++ [(packBits (lzBits data)).2]).length
      from by simp [toBytesBE_length], List.drop_left]
  rw [lzDecompress, if_neg (by omega), if_neg (by omega)]
  simp only [htake, hgd8, hdrop9,
    fromBytesBE_toBytesBE_of_lt data.length 8 (by norm_num; omega),
    packBits_maxBits (lzBits data), lz_roundtrip_loop data hbytes, if_pos rfl, if_true]

/-- Claim C5: in every LZ77 match token the trailing literal is present if
and only if bytes remained after the match (`i + length < N`); the decoder
recomputes the identical condition, so on every blob the compressor produces
the two sides agree on every token's size — expressed by the decoder loop
finishing with its bit cursor exactly at the end of the packed bit stream
(`pos = (lzBits data).length`), having decoded exactly the original buffer. -/
theorem C5_trailing_literal_agreement :
    (∀ (data : List Nat) (i d l : Nat) (lit : Option Nat),
      (encodeFrom data i).head? = some (d, l, lit) → MIN_MATCH_LENGTH ≤ l →
      (lit.isSome ↔ i + l < data.length)) ∧
    (∀ data : List Nat, (∀ b ∈ data, b < 256) →
      lzLoop (packBits (lzBits data)).1 (lzBits data).length data.length 0 [] 0 =
        .done data data.length (lzBits data).length) := by
  constructor
  · intro data i d l lit hhead hml
    by_cases hilt : i < data.length
    · rw [encodeFrom, show data.length - i = (data.length - i - 1) + 1 from by omega] at hhead
      rcases hdl : findLongestMatch ((data.take i).drop (i - SEARCH_WINDOW_SIZE))
          ((data.drop i).take LOOKAHEAD_SIZE) with ⟨d', l'⟩
      simp only [encodeFromF, if_pos hilt, hdl] at hhead
      by_cases hml' : MIN_MATCH_LENGTH ≤ l'
      · rw [if_pos hml'] at hhead
        simp only [List.head?_cons, Option.some.injEq, Prod.mk.injEq] at hhead
        obtain ⟨rfl, rfl, rfl⟩ := hhead
        by_cases hnext : i + l' < data.length <;> simp [hnext]
      · rw [if_neg hml'] at hhead
        simp only [List.head?_cons, Option.some.injEq, Prod.mk.injEq] at hhead
        obtain ⟨_, rfl, _⟩ := hhead
        simp [MIN_MATCH_LENGTH] at hml
    · rw [encodeFrom, show data.length - i = 0 from by omega] at hhead
      simp [encodeFromF] at hhead
  · exact fun data hbytes => lz_roundtrip_loop data hbytes

/-- Witness for C5 at the buffer `ABABABAB`: its match token `(4, 4, none)`
has no trailing literal because the match ends the buffer, and the decoder
loop of the compressed blob ends exactly at the last payload bit. -/
theorem C5_trailing_literal_agreement_witness :
    ((Option.none : Option Nat).isSome ↔ 4 + 4 < ([65, 66, 65, 66, 65, 66, 65, 66] : List Nat).length) ∧
      lzLoop (packBits (lzBits [65, 66, 65, 66, 65, 66, 65, 66])).1
        (lzBits [65, 66, 65, 66, 65, 66, 65, 66]).length 8 0 [] 0 =
        .done [65, 66, 65, 66, 65, 66, 65, 66] 8 (lzBits [65, 66, 65, 66, 65, 66, 65, 66]).length := by
  constructor
  · exact C5_trailing_literal_agreement.1 [65, 66, 65, 66, 65, 66, 65, 66] 4 4 4 none
      (by decide) (by decide)
  · exact C5_trailing_literal_agreement.2 [65, 66, 65, 66, 65, 66, 65, 66] (by decide)


/-! ## Heap operations: length preservation -/

lemma siftdownF_length :
    ∀ fuel (heap : List HNode) s p x, (siftdownF fuel heap s p x).length = heap.length := by
  intro fuel
  induction fuel with
  | zero => intro heap s p x; rw [siftdownF]; simp
  | succ n ih =>
    intro heap s p x
    rw [siftdownF]
    split
    · split
      · rw [ih]; simp
      · simp
    · simp

lemma siftdownAux_length (heap : List HNode) (s p : Nat) (x : HNode) :
    (siftdownAux heap s p x).length = heap.length :=
  siftdownF_length p heap s p x

lemma siftupF_length :
    ∀ fuel (heap : List HNode) s p x e, (siftupF fuel heap s p x e).length = heap.length := by
  intro fuel
  induction fuel with
  | zero =>
    intro heap s p x e
    rw [siftupF]
    rw [siftdownAux_length]
    simp
  | succ n ih =>
    intro heap s p x e
    rw [siftupF]
    split
    · split
      · rw [ih]; simp
      · rw [ih]; simp
    · rw [siftdownAux_length]; simp

lemma siftupAux_length (heap : List HNode) (s p : Nat) (x : HNode) (e : Nat) :
    (siftupAux heap s p x e).length = heap.length :=
  siftupF_length (e - p) heap s p x e

lemma heappush_length (heap : List HNode) (x : HNode) :
    (heappush heap x).length = heap.length + 1 := by
  calc (heappush heap x).length = (heap ++ [x]).length :=
        siftdownAux_length (heap ++ [x]) 0 heap.length x
  _ = heap.length + 1 := by simp

lemma heappop_isSome (heap : List HNode) (hne : heap ≠ []) :
    ∃ x h', heappop heap = some (x, h') := by
  rw [heappop]
  cases hl : heap.getLast? with
  | none =>
    rw [List.getLast?_eq_none_iff] at hl
    exact absurd hl hne
  | some lastelt =>
    by_cases he : heap.dropLast.isEmpty
    · exact ⟨lastelt, [], by simp [he]⟩
    · exact ⟨heap.dropLast.getD 0 default,
        siftupAux (heap.dropLast.set 0 lastelt) 0 0 lastelt heap.dropLast.length,
        by simp [he]⟩

lemma heappop_length (heap : List HNode) (x : HNode) (rest : List HNode)
    (h : heappop heap = some (x, rest)) : rest.length = heap.length - 1 := by
  rw [heappop] at h
  cases hl : heap.getLast? with
  | none => simp [hl] at h
  | some lastelt =>
    simp only [hl] at h
    by_cases he : heap.dropLast.isEmpty
    · simp only [he, if_true, Option.some.injEq, Prod.mk.injEq] at h
      obtain ⟨h1, h2⟩ := h
      subst h2
      simp only [List.isEmpty_iff] at he
      have hh := heap.length_dropLast
      rw [he] at hh
      simp at hh ⊢
      omega
    · simp only [he, if_false, Option.some.injEq, Prod.mk.injEq] at h
      obtain ⟨h1, rfl⟩ := h
      rw [siftupAux_length]
      simp

/-! ## Heap operations: the multiset of nodes is preserved -/

lemma count_set_getD (l : List HNode) (p : Nat) (x : HNode) (hp : p < l.length) (a : HNode) :
    (l.set p x).count a + (if l.getD p default = a then 1 else 0) =
      l.count a + (if x = a then 1 else 0) := by
  induction l generalizing p with
  | nil => simp at hp
  | cons y ys ih =>
    cases p with
    | zero =>
      simp only [List.set_cons_zero, List.getD_cons_zero, List.count_cons, beq_iff_eq]
      split_ifs <;> omega
    | succ n =>
      simp only [List.set_cons_succ, List.getD_cons_succ, List.count_cons, beq_iff_eq]
      have hn := ih n (by simpa using hp)
      split_ifs at hn ⊢ <;> omega

lemma getD_set_ne (l : List HNode) (p q : Nat) (v : HNode) (hne : p ≠ q) :
    (l.set p v).getD q default = l.getD q default := by
  rw [List.getD_eq_getElem?_getD, List.getD_eq_getElem?_getD, List.getElem?_set_ne hne]

lemma set_getD_set_perm (l : List HNode) (p q : Nat) (x : HNode)
    (hp : p < l.length) (hq : q < l.length) (hne : q ≠ p) :
    ((l.set p (l.getD q default)).set q x).Perm (l.set p x) := by
  rw [List.perm_iff_count]
  intro a
  have h1 := count_set_getD (l.set p (l.getD q default)) q x (by simp [hq]) a
  rw [getD_set_ne l p q _ (Ne.symm hne)] at h1
  have h2 := count_set_getD l p (l.getD q default) hp a
  have h3 := count_set_getD l p x hp a
  split_ifs at h1 h2 h3 <;> omega

lemma siftdownF_perm :
    ∀ fuel (l : List HNode) s pos x, pos < l.length →
      (siftdownF fuel l s pos x).Perm (l.set pos x) := by
  intro fuel
  induction fuel with
  | zero => intro l s pos x _; rw [siftdownF]
  | succ n ih =>
    intro l s pos x hpos
    rw [siftdownF]
    split
    · split
      · rename_i hlt _
        have hpp : (pos - 1) / 2 < l.length := by omega
        refine List.Perm.trans (ih _ _ _ _ (by simp; omega)) ?_
        exact set_getD_set_perm l pos ((pos - 1) / 2) x hpos hpp (by omega)
      · exact List.Perm.refl _
    · exact List.Perm.refl _

lemma siftdownAux_perm (l : List HNode) (s pos : Nat) (x : HNode) (hpos : pos < l.length) :
    (siftdownAux l s pos x).Perm (l.set pos x) :=
  siftdownF_perm pos l s pos x hpos

lemma siftupF_perm :
    ∀ fuel (l : List HNode) s pos x e, pos < l.length → e ≤ l.length →
      (siftupF fuel l s pos x e).Perm (l.set pos x) := by
  intro fuel
  induction fuel with
  | zero =>
    intro l s pos x e hpos he
    rw [siftupF]
    refine List.Perm.trans (siftdownAux_perm _ _ _ _ (by simp [hpos])) ?_
    rw [List.set_set]
  | succ n ih =>
    intro l s pos x e hpos he
    rw [siftupF]
    split
    · split
      · rename_i h2 h3
        have hc : 2 * pos + 2 < l.length := by omega
        refine List.Perm.trans (ih _ _ _ _ _ (by simp; omega) (by simp; omega)) ?_
        exact set_getD_set_perm l pos (2 * pos + 2) x hpos hc (by omega)
      · rename_i h2 h3
        have hc : 2 * pos + 1 < l.length := by omega
        refine List.Perm.trans (ih _ _ _ _ _ (by simp; omega) (by simp; omega)) ?_
        exact set_getD_set_perm l pos (2 * pos + 1) x hpos hc (by omega)
    · refine List.Perm.trans (siftdownAux_perm _ _ _ _ (by simp [hpos])) ?_
      rw [List.set_set]

lemma set_append_last (h : List HNode) (x y : HNode) :
    (h ++ [x]).set h.length y = h ++ [y] := by
  rw [List.set_append, if_neg (by omega)]
  simp

lemma heappush_perm (h : List HNode) (x : HNode) : (heappush h x).Perm (x :: h) := by
  refine List.Perm.trans (siftdownAux_perm (h ++ [x]) 0 h.length x (by simp)) ?_
  rw [set_append_last]
  exact List.perm_append_singleton x h

lemma heappop_perm (heap : List HNode) (x : HNode) (rest : List HNode)
    (h : heappop heap = some (x, rest)) : (x :: rest).Perm heap := by
  rw [heappop] at h
  cases hl : heap.getLast? with
  | none => simp [hl] at h
  | some lastelt =>
    have hne : heap ≠ [] := by
      intro hh
      rw [hh] at hl
      simp at hl
    simp only [hl] at h
    have hle : lastelt = heap.getLast hne := by
      have h2 := List.getLast?_eq_getLast heap hne
      rw [hl] at h2
      exact Option.some.inj h2
    have hdl : heap.dropLast ++ [lastelt] = heap := by
      rw [hle]
      exact List.dropLast_append_getLast hne
    by_cases he : heap.dropLast.isEmpty
    · simp only [he, if_true, Option.some.injEq, Prod.mk.injEq] at h
      obtain ⟨rfl, rfl⟩ := h
      simp only [List.isEmpty_iff] at he
      rw [he] at hdl
      rw [← hdl]
      rfl
    · simp only [he, if_false, Option.some.injEq, Prod.mk.injEq] at h
      obtain ⟨rfl, rfl⟩ := h
      simp only [List.isEmpty_iff] at he
      obtain ⟨a, t, hat⟩ : ∃ a t, heap.dropLast = a :: t := by
        cases hdli : heap.dropLast with
        | nil => exact absurd hdli he
        | cons a t => exact ⟨a, t, rfl⟩
      have hperm1 : (siftupAux (heap.dropLast.set 0 lastelt) 0 0 lastelt
          heap.dropLast.length).Perm (heap.dropLast.set 0 lastelt) := by
        have h1 := siftupF_perm (heap.dropLast.length - 0) (heap.dropLast.set 0 lastelt)
          0 0 lastelt heap.dropLast.length (by rw [hat]; simp) (by simp)
        rw [List.set_set] at h1
        exact h1
      conv_rhs => rw [← hdl]
      rw [hat] at hperm1 ⊢
      simp only [List.set_cons_zero, List.getD_cons_zero] at hperm1 ⊢
      exact List.Perm.trans (List.Perm.cons a hperm1)
        (List.Perm.cons a (List.perm_append_singleton lastelt t).symm)

/-! ## The frequency dictionary -/

lemma bump_keys_mem (L : List (Nat × Nat)) (b a : Nat) :
    a ∈ (bump L b).map Prod.fst ↔ a ∈ L.map Prod.fst ∨ a = b := by
  induction L with
  | nil => simp [bump]
  | cons p rest ih =>
    obtain ⟨k, c⟩ := p
    by_cases hk : k = b
    · subst hk
      simp [bump]
      tauto
    · simp [bump, hk, ih]
      tauto

lemma bump_sum (L : List (Nat × Nat)) (b : Nat) :
    ((bump L b).map Prod.snd).sum = (L.map Prod.snd).sum + 1 := by
  induction L with
  | nil => simp [bump]
  | cons p rest ih =>
    obtain ⟨k, c⟩ := p
    by_cases hk : k = b
    · subst hk; simp [bump]; omega
    · simp [bump, hk, ih]; omega

lemma bump_keys (L : List (Nat × Nat)) (b : Nat) :
    (bump L b).map Prod.fst =
      if b ∈ L.map Prod.fst then L.map Prod.fst else L.map Prod.fst ++ [b] := by
  induction L with
  | nil => simp [bump]
  | cons p rest ih =>
    obtain ⟨k, c⟩ := p
    by_cases hk : k = b
    · subst hk; simp [bump]
    · have hne : ¬ b = k := fun h => hk h.symm
      by_cases hmem : b ∈ rest.map Prod.fst
      · simp [bump, hk, ih, hmem, hne]
      · simp [bump, hk, ih, hmem, hne]

lemma bump_nodup (L : List (Nat × Nat)) (b : Nat)
    (h : (L.map Prod.fst).Nodup) : ((bump L b).map Prod.fst).Nodup := by
  rw [bump_keys]
  by_cases hmem : b ∈ L.map Prod.fst
  · simpa [hmem] using h
  · rw [if_neg hmem]
    refine List.Nodup.append h (List.nodup_singleton b) ?_
    intro x hx hx'
    simp at hx'
    subst hx'
    exact hmem hx

lemma bump_pos (L : List (Nat × Nat)) (b : Nat)
    (h : ∀ p ∈ L, 1 ≤ p.2) : ∀ p ∈ bump L b, 1 ≤ p.2 := by
  induction L with
  | nil => simp [bump]
  | cons q rest ih =>
    obtain ⟨k, c⟩ := q
    by_cases hk : k = b
    · subst hk
      intro p hp
      simp [bump] at hp
      rcases hp with rfl | hp
      · simp
      · exact h p (by simp [hp])
    · intro p hp
      simp [bump, hk] at hp
      rcases hp with rfl | hp
      · exact h (k, c) (by simp)
      · exact ih (fun q hq => h q (by simp [hq])) p hp

lemma freqList_foldl (data : List Nat) : ∀ L : List (Nat × Nat),
    ((data.foldl bump L).map Prod.snd).sum = (L.map Prod.snd).sum + data.length ∧
    (∀ a, a ∈ (data.foldl bump L).map Prod.fst ↔ a ∈ L.map Prod.fst ∨ a ∈ data) ∧
    ((L.map Prod.fst).Nodup → ((data.foldl bump L).map Prod.fst).Nodup) ∧
    ((∀ p ∈ L, 1 ≤ p.2) → ∀ p ∈ data.foldl bump L, 1 ≤ p.2) := by
  induction data with
  | nil => intro L; simp
  | cons x xs ih =>
    intro L
    rw [List.foldl_cons]
    obtain ⟨h1, h2, h3, h4⟩ := ih (bump L x)
    refine ⟨?_, ?_, ?_, ?_⟩
    · rw [h1, bump_sum]
      simp only [List.length_cons]
      omega
    · intro a
      rw [h2 a, bump_keys_mem]
      simp only [List.mem_cons]
      tauto
    · intro hnd
      exact h3 (bump_nodup L x hnd)
    · intro hp
      exact h4 (bump_pos L x hp)

lemma freqList_sum (data : List Nat) :
    ((freqList data).map Prod.snd).sum = data.length := by
  have h := (freqList_foldl data []).1
  simpa [freqList] using h

lemma freqList_keys_mem (data : List Nat) (a : Nat) :
    a ∈ (freqList data).map Prod.fst ↔ a ∈ data := by
  have h := (freqList_foldl data []).2.1 a
  simpa [freqList] using h

lemma freqList_nodup (data : List Nat) : ((freqList data).map Prod.fst).Nodup := by
  have h := (freqList_foldl data []).2.2.1
  simpa [freqList] using h (by simp)

lemma freqList_pos (data : List Nat) : ∀ p ∈ freqList data, 1 ≤ p.2 := by
  have h := (freqList_foldl data []).2.2.2
  simpa [freqList] using h (by simp)

lemma freqList_count_le (data : List Nat) (p : Nat × Nat) (hp : p ∈ freqList data) :
    p.2 ≤ data.length := by
  rw [← freqList_sum data]
  exact List.single_le_sum (fun x _ => Nat.zero_le x) p.2
    (List.mem_map_of_mem Prod.snd hp)

lemma freqList_keys_lt (data : List Nat) (hbytes : ∀ b ∈ data, b < 256) :
    ∀ p ∈ freqList data, p.1 < 256 := by
  intro p hp
  exact hbytes p.1 ((freqList_keys_mem data p.1).1 (List.mem_map_of_mem Prod.fst hp))

lemma freqList_length_le (data : List Nat) (hbytes : ∀ b ∈ data, b < 256) :
    (freqList data).length ≤ 256 := by
  have hsub : (freqList data).map Prod.fst ⊆ List.range 256 := by
    intro a ha
    rw [List.mem_range]
    exact hbytes a ((freqList_keys_mem data a).1 ha)
  have h := List.Subperm.length_le
    (List.subperm_of_subset (freqList_nodup data) hsub)
  simpa using h

lemma freqList_ne_nil (data : List Nat) (hne : data ≠ []) : freqList data ≠ [] := by
  obtain ⟨b, hb⟩ := List.exists_mem_of_ne_nil data hne
  intro h
  have hmem := (freqList_keys_mem data b).2 hb
  rw [h] at hmem
  simp at hmem

/-! ## The push loop and merge loop of `build_huffman_tree_and_codes` -/

lemma pushList_length (freqL : List (Nat × Nat)) : ∀ h0 : List HNode,
    (freqL.foldl (fun h kv => heappush h (.leaf kv.1 kv.2)) h0).length =
      h0.length + freqL.length := by
  induction freqL with
  | nil => intro h0; simp
  | cons kv rest ih =>
    intro h0
    rw [List.foldl_cons, ih, heappush_length]
    simp only [List.length_cons]
    omega

lemma pushList_perm (freqL : List (Nat × Nat)) : ∀ h0 : List HNode,
    (freqL.foldl (fun h kv => heappush h (.leaf kv.1 kv.2)) h0).Perm
      (h0 ++ freqL.map (fun kv => HNode.leaf kv.1 kv.2)) := by
  induction freqL with
  | nil => intro h0; simp
  | cons kv rest ih =>
    intro h0
    rw [List.foldl_cons, List.map_cons]
    refine List.Perm.trans (ih (heappush h0 (.leaf kv.1 kv.2))) ?_
    refine List.Perm.trans
      (List.Perm.append_right _ (heappush_perm h0 (.leaf kv.1 kv.2))) ?_
    exact List.perm_middle.symm

lemma flatMap_hleaves_leaf (freqL : List (Nat × Nat)) :
    (freqL.map (fun kv => HNode.leaf kv.1 kv.2)).flatMap hleaves =
      freqL.map Prod.fst := by
  induction freqL with
  | nil => rfl
  | cons kv rest ih => simp [hleaves, ih]

lemma heappush_nil (x : HNode) : heappush [] x = [x] := rfl

lemma buildLoopF_single (fuel : Nat) (x : HNode) : buildLoopF fuel [x] = some x := by
  cases fuel with
  | zero => rfl
  | succ n => simp [buildLoopF]

lemma buildLoopF_leaves : ∀ (fuel : Nat) (heap : List HNode) (root : HNode),
    heap.length ≤ fuel + 1 → buildLoopF fuel heap = some root →
    (hleaves root).Perm (heap.flatMap hleaves) := by
  intro fuel
  induction fuel with
  | zero =>
    intro heap root hlen h
    rw [buildLoopF] at h
    cases heap with
    | nil => simp at h
    | cons y t =>
      simp only [List.head?_cons, Option.some.injEq] at h
      subst h
      rw [List.length_cons] at hlen
      have ht : t = [] := List.length_eq_zero.mp (by omega)
      subst ht
      simp
  | succ n ih =>
    intro heap root hlen h
    rw [buildLoopF] at h
    by_cases hle : heap.length ≤ 1
    · rw [if_pos hle] at h
      cases heap with
      | nil => simp at h
      | cons y t =>
        simp only [List.head?_cons, Option.some.injEq] at h
        subst h
        rw [List.length_cons] at hle
        have ht : t = [] := List.length_eq_zero.mp (by omega)
        subst ht
        simp
    · rw [if_neg hle] at h
      push_neg at hle
      obtain ⟨left, h2, hpop1⟩ := heappop_isSome heap (by
        intro hnil; rw [hnil] at hle; simp at hle)
      simp only [hpop1] at h
      have hlen2 := heappop_length heap left h2 hpop1
      obtain ⟨right, h3, hpop2⟩ := heappop_isSome h2 (by
        intro hnil; rw [hnil] at hlen2; simp at hlen2; omega)
      simp only [hpop2] at h
      have hlen3 := heappop_length h2 right h3 hpop2
      have hplen :
          (heappush h3 (HNode.node (left.hfreq + right.hfreq) left right)).length
            ≤ n + 1 := by
        rw [heappush_length]
        omega
      have hrec := ih _ root hplen h
      have hpp := heappush_perm h3 (HNode.node (left.hfreq + right.hfreq) left right)
      have hp1 := heappop_perm heap left h2 hpop1
      have hp2 := heappop_perm h2 right h3 hpop2
      refine hrec.trans ?_
      refine (List.Perm.flatMap_right hleaves hpp).trans ?_
      have hstep :
          ((HNode.node (left.hfreq + right.hfreq) left right) :: h3).flatMap hleaves
            = hleaves left ++ (hleaves right ++ h3.flatMap hleaves) := by
        simp [hleaves]
      rw [hstep]
      have h5 := List.Perm.flatMap_right hleaves hp2
      have h6 := List.Perm.flatMap_right hleaves hp1
      simp only [List.flatMap_cons] at h5 h6
      exact (List.Perm.append_left (hleaves left) h5).trans h6

lemma buildLoop_leaves (heap : List HNode) (root : HNode)
    (h : buildLoop heap = some root) :
    (hleaves root).Perm (heap.flatMap hleaves) :=
  buildLoopF_leaves heap.length heap root (by omega) h

lemma buildLoopF_node : ∀ (fuel : Nat) (heap : List HNode),
    2 ≤ heap.length → heap.length ≤ fuel →
    ∃ f l r, buildLoopF fuel heap = some (.node f l r) := by
  intro fuel
  induction fuel with
  | zero => intro heap hl hf; omega
  | succ n ih =>
    intro heap hl hf
    rw [buildLoopF]
    rw [if_neg (by omega)]
    obtain ⟨left, h2, hpop1⟩ := heappop_isSome heap (by
      intro hnil; rw [hnil] at hl; simp at hl)
    simp only [hpop1]
    have hlen2 := heappop_length heap left h2 hpop1
    obtain ⟨right, h3, hpop2⟩ := heappop_isSome h2 (by
      intro hnil; rw [hnil] at hlen2; simp at hlen2; omega)
    simp only [hpop2]
    have hlen3 := heappop_length h2 right h3 hpop2
    by_cases hcase :
        2 ≤ (heappush h3 (HNode.node (left.hfreq + right.hfreq) left right)).length
    · exact ih _ hcase (by rw [heappush_length] at hcase ⊢; omega)
    · have h3nil : h3 = [] := by
        rw [heappush_length] at hcase
        exact List.length_eq_zero.mp (by omega)
      subst h3nil
      rw [heappush_nil, buildLoopF_single]
      exact ⟨_, _, _, rfl⟩

lemma buildHuffman_two (freqL : List (Nat × Nat)) (h2 : 2 ≤ freqL.length) :
    ∃ f l r,
      buildHuffman freqL =
        (some (HNode.node f l r), generateCodes (HNode.node f l r) []) ∧
      (hleaves (HNode.node f l r)).Perm (freqL.map Prod.fst) := by
  set pq := freqL.foldl (fun h kv => heappush h (.leaf kv.1 kv.2)) [] with hpq
  have hlen : pq.length = freqL.length := by
    rw [hpq, pushList_length]
    simp
  obtain ⟨f, l, r, hroot⟩ := buildLoopF_node pq.length pq (by omega) (le_refl _)
  have hbl : buildLoop pq = some (HNode.node f l r) := hroot
  have hne : pq.isEmpty = false := by
    cases hc : pq with
    | nil => rw [hc] at hlen; simp at hlen; omega
    | cons a t => rfl
  have hnot1 : ¬ pq.length = 1 := by omega
  refine ⟨f, l, r, ?_, ?_⟩
  · simp only [buildHuffman]
    rw [← hpq, hne]
    simp only [Bool.false_eq_true, if_false]
    rw [if_neg hnot1, hbl]
  · refine (buildLoop_leaves pq _ hbl).trans ?_
    have hp := List.Perm.flatMap_right hleaves (pushList_perm freqL [])
    rw [List.nil_append, flatMap_hleaves_leaf] at hp
    exact hp

/-! ## The code table (`generate_codes_recursive`) -/

lemma generateCodes_acc (t : HNode) : ∀ acc : List Bool,
    generateCodes t acc = (generateCodes t []).map (fun p => (p.1, acc ++ p.2)) := by
  induction t with
  | leaf b f => intro acc; simp [generateCodes]
  | node f l r ihl ihr =>
    intro acc
    simp only [generateCodes, List.nil_append]
    rw [ihl (acc ++ [false]), ihr (acc ++ [true]), ihl [false], ihr [true]]
    simp [List.map_map, Function.comp_def, List.append_assoc]

lemma map_fst_prepend (bt : Bool) (L : List (Nat × List Bool)) :
    (L.map (fun p => (p.1, bt :: p.2))).map Prod.fst = L.map Prod.fst := by
  induction L with
  | nil => rfl
  | cons p rest ih => simp [ih]

lemma generateCodes_keys (t : HNode) :
    (generateCodes t []).map Prod.fst = hleaves t := by
  induction t with
  | leaf b f => simp [generateCodes, hleaves]
  | node f l r ihl ihr =>
    simp only [generateCodes, List.nil_append, hleaves]
    rw [generateCodes_acc l, generateCodes_acc r]
    simp only [List.singleton_append, List.map_append]
    rw [map_fst_prepend, map_fst_prepend, ihl, ihr]

lemma generateCodes_node_mem (f : Nat) (l r : HNode) (b : Nat) (c : List Bool) :
    (b, c) ∈ generateCodes (HNode.node f l r) [] ↔
      (∃ c', c = false :: c' ∧ (b, c') ∈ generateCodes l []) ∨
      (∃ c', c = true :: c' ∧ (b, c') ∈ generateCodes r []) := by
  simp only [generateCodes, List.nil_append]
  rw [generateCodes_acc l, generateCodes_acc r]
  simp only [List.mem_append, List.mem_map]
  constructor
  · rintro (⟨⟨b', c'⟩, hp, heq⟩ | ⟨⟨b', c'⟩, hp, heq⟩)
    · simp only [Prod.mk.injEq, List.singleton_append] at heq
      obtain ⟨rfl, rfl⟩ := heq
      exact Or.inl ⟨c', rfl, hp⟩
    · simp only [Prod.mk.injEq, List.singleton_append] at heq
      obtain ⟨rfl, rfl⟩ := heq
      exact Or.inr ⟨c', rfl, hp⟩
  · rintro (⟨c', rfl, hp⟩ | ⟨c', rfl, hp⟩)
    · exact Or.inl ⟨(b, c'), hp, by simp⟩
    · exact Or.inr ⟨(b, c'), hp, by simp⟩

lemma lookup_mem_pairs {β : Type} (L : List (Nat × β)) (a : Nat) (c : β)
    (h : L.lookup a = some c) : (a, c) ∈ L := by
  induction L with
  | nil => simp [List.lookup] at h
  | cons p rest ih =>
    obtain ⟨k, v⟩ := p
    by_cases hk : k = a
    · subst hk
      simp [List.lookup] at h
      subst h
      simp
    · have hbeq : (a == k) = false := beq_eq_false_iff_ne.mpr (Ne.symm hk)
      simp only [List.lookup, hbeq] at h
      exact List.mem_cons_of_mem _ (ih h)

lemma lookup_isSome_keys {β : Type} (L : List (Nat × β)) (a : Nat)
    (h : a ∈ L.map Prod.fst) : (L.lookup a).isSome := by
  induction L with
  | nil => simp at h
  | cons p rest ih =>
    obtain ⟨k, v⟩ := p
    by_cases hk : k = a
    · subst hk
      simp [List.lookup]
    · simp only [List.map_cons, List.mem_cons] at h
      rcases h with h | h
      · exact absurd h.symm hk
      · have hbeq : (a == k) = false := beq_eq_false_iff_ne.mpr (Ne.symm hk)
        simp only [List.lookup, hbeq]
        exact ih h

/-! ## The flat decoding walk -/

lemma decodeFlat_done (root : HNode) (total : Nat) (cur : HNode) (bits : List Bool)
    (out : List Nat) (count : Nat) (h : total ≤ count) :
    decodeFlat root total cur bits out count = .finished out count := by
  cases bits with
  | nil => rfl
  | cons bit bs =>
    cases cur with
    | leaf b0 f0 => rw [decodeFlat, if_pos h]
    | node f0 l0 r0 => rw [decodeFlat, if_pos h]

lemma decodeFlat_code (root : HNode) (total : Nat) : ∀ t : HNode,
    (∃ fr tl tr, t = HNode.node fr tl tr) → ∀ (b : Nat) (c : List Bool),
    (b, c) ∈ generateCodes t [] → ∀ (rest : List Bool) (out : List Nat) (count : Nat),
    count < total →
    decodeFlat root total t (c ++ rest) out count =
      decodeFlat root total root rest (out ++ [b]) (count + 1) := by
  intro t
  induction t with
  | leaf b0 f0 =>
    rintro ⟨fr, tl, tr, heq⟩
    exact absurd heq (by simp)
  | node f0 l0 r0 ihl ihr =>
    rintro - b c hmem rest out count hcount
    rw [generateCodes_node_mem] at hmem
    rcases hmem with ⟨c', rfl, hp⟩ | ⟨c', rfl, hp⟩
    · cases l0 with
      | leaf b1 f1 =>
        simp only [generateCodes, List.mem_singleton, Prod.mk.injEq] at hp
        obtain ⟨rfl, rfl⟩ := hp
        rw [List.cons_append, decodeFlat, if_neg (by omega)]
        simp
      | node f1 cl cr =>
        rw [List.cons_append, decodeFlat, if_neg (by omega)]
        have h := ihl ⟨f1, cl, cr, rfl⟩ b c' hp rest out count hcount
        simpa using h
    · cases r0 with
      | leaf b1 f1 =>
        simp only [generateCodes, List.mem_singleton, Prod.mk.injEq] at hp
        obtain ⟨rfl, rfl⟩ := hp
        rw [List.cons_append, decodeFlat, if_neg (by omega)]
        simp
      | node f1 cl cr =>
        rw [List.cons_append, decodeFlat, if_neg (by omega)]
        have h := ihr ⟨f1, cl, cr, rfl⟩ b c' hp rest out count hcount
        simpa using h

lemma decodeFlat_flatMap (root : HNode)
    (hroot : ∃ fr tl tr, root = HNode.node fr tl tr)
    (table : List (Nat × List Bool)) (htab : table = generateCodes root []) :
    ∀ (data out : List Nat) (count total : Nat),
    count + data.length = total →
    (∀ b ∈ data, (table.lookup b).isSome) →
    decodeFlat root total root (data.flatMap (fun b => (table.lookup b).getD []))
      out count = .finished (out ++ data) total := by
  intro data
  induction data with
  | nil =>
    intro out count total hc hl
    have hct : count = total := by simpa using hc
    subst hct
    simp [decodeFlat]
  | cons b bs ih =>
    intro out count total hc hl
    have hsome := hl b (by simp)
    obtain ⟨c, hcs⟩ := Option.isSome_iff_exists.mp hsome
    rw [List.flatMap_cons, hcs]
    simp only [Option.getD_some]
    have hmem : (b, c) ∈ table := lookup_mem_pairs table b c hcs
    rw [htab] at hmem
    rw [decodeFlat_code root total root hroot b c hmem _ out count (by
      simp only [List.length_cons] at hc; omega)]
    rw [ih (out ++ [b]) (count + 1) total (by
      simp only [List.length_cons] at hc ⊢; omega)
      (fun x hx => hl x (by simp [hx]))]
    simp

/-! ## The byte-by-byte loop agrees with the flat walk -/

lemma huffInner_decodeFlat (root : HNode) (total : Nat) : ∀ (B : List Bool)
    (cur : HNode) (out : List Nat) (count : Nat) (rest : List Bool),
    count < total →
    decodeFlat root total cur (B ++ rest) out count =
      (match huffInner root cur B out count total with
       | .crash w => HLoopRes.crash w
       | .cont cur' out' count' =>
         if total ≤ count' then HLoopRes.finished out' count'
         else decodeFlat root total cur' rest out' count') := by
  intro B
  induction B with
  | nil =>
    intro cur out count rest hc
    simp only [huffInner]
    rw [List.nil_append, if_neg (by omega)]
  | cons bit bs ih =>
    intro cur out count rest hc
    cases cur with
    | leaf b0 f0 =>
      rw [List.cons_append, decodeFlat, if_neg (by omega)]
      simp only [huffInner]
    | node f0 l0 r0 =>
      rw [List.cons_append, decodeFlat, if_neg (by omega)]
      cases bit with
      | false =>
        cases l0 with
        | leaf b1 f1 =>
          simp only [huffInner, Bool.false_eq_true, if_false]
          by_cases h2 : total ≤ count + 1
          · simp only [h2, if_true]
            exact decodeFlat_done root total root (bs ++ rest) (out ++ [b1])
              (count + 1) h2
          · simp only [h2, if_false]
            exact ih root (out ++ [b1]) (count + 1) rest (by omega)
        | node f1 cl cr =>
          simp only [huffInner, Bool.false_eq_true, if_false]
          exact ih (HNode.node f1 cl cr) out count rest (by omega)
      | true =>
        cases r0 with
        | leaf b1 f1 =>
          simp only [huffInner, if_true]
          by_cases h2 : total ≤ count + 1
          · simp only [h2, if_true]
            exact decodeFlat_done root total root (bs ++ rest) (out ++ [b1])
              (count + 1) h2
          · simp only [h2, if_false]
            exact ih root (out ++ [b1]) (count + 1) rest (by omega)
        | node f1 cl cr =>
          simp only [huffInner, if_true]
          exact ih (HNode.node f1 cl cr) out count rest (by omega)

lemma huffLoop_done (root : HNode) (padding total : Nat) (payload : List Nat)
    (cur : HNode) (out : List Nat) (count : Nat) (h : total ≤ count) :
    huffLoop root padding total payload cur out count = .finished out count := by
  cases payload with
  | nil => rfl
  | cons v rest => rw [huffLoop, if_pos h]

lemma huffLoop_eq_decodeFlat (root : HNode) (padding total : Nat) :
    ∀ (payload : List Nat) (cur : HNode) (out : List Nat) (count : Nat),
    huffLoop root padding total payload cur out count =
      decodeFlat root total cur (bitsOfPayload padding payload) out count := by
  intro payload
  induction payload with
  | nil => intro cur out count; rfl
  | cons v rest ih =>
    intro cur out count
    rw [huffLoop, bitsOfPayload]
    by_cases hc : total ≤ count
    · rw [if_pos hc, decodeFlat_done root total cur _ out count hc]
    · rw [if_neg hc]
      rw [huffInner_decodeFlat root total
        (byteBits v (if rest.isEmpty then 8 - padding else 8)) cur out count
        (bitsOfPayload padding rest) (by omega)]
      cases hres : huffInner root cur
          (byteBits v (if rest.isEmpty then 8 - padding else 8)) out count total with
      | crash w => simp only [hres]
      | cont cur' out' count' =>
        simp only [hres]
        by_cases h2 : total ≤ count'
        · rw [if_pos h2]
          exact huffLoop_done root padding total rest cur' out' count' h2
        · rw [if_neg h2]
          exact ih cur' out' count'

/-! ## The decoder's per-byte bits recover the packed bit stream -/

lemma bitAt_cons (v : Nat) (tl : List Nat) (k : Nat) :
    bitAt (v :: tl) (8 + k) = bitAt tl k := by
  rw [bitAt, bitAt]
  rw [show (8 + k) / 8 = k / 8 + 1 by omega]
  rw [List.getD_cons_succ]
  rw [show (8 + k) % 8 = k % 8 by omega]

lemma bitAt_head (v : Nat) (tl : List Nat) (k : Nat) (hk : k < 8) :
    bitAt (v :: tl) k = v.testBit (7 - k) := by
  rw [bitAt]
  rw [show k / 8 = 0 by omega, show k % 8 = k by omega, List.getD_cons_zero]

lemma byteBits_bitAt (v : Nat) (tl : List Nat) (n : Nat) (hn : n ≤ 8) :
    byteBits v n = (List.range n).map (fun k => bitAt (v :: tl) k) := by
  rw [byteBits]
  refine List.map_congr_left ?_
  intro i hi
  rw [List.mem_range] at hi
  rw [bitAt_head v tl i (by omega)]

lemma bitsOfPayload_spec (p : Nat) (hp : p ≤ 8) : ∀ bytes : List Nat, bytes ≠ [] →
    bitsOfPayload p bytes =
      (List.range (8 * bytes.length - p)).map (fun k => bitAt bytes k) := by
  intro bytes
  induction bytes with
  | nil => intro h; exact absurd rfl h
  | cons v rest ih =>
    intro _
    cases rest with
    | nil =>
      rw [bitsOfPayload, bitsOfPayload]
      simp only [List.isEmpty_nil, if_true, List.append_nil, List.length_cons,
        List.length_nil]
      rw [show 8 * (0 + 1) - p = 8 - p by omega]
      exact byteBits_bitAt v [] (8 - p) (by omega)
    | cons w rest' =>
      rw [bitsOfPayload]
      simp only [List.isEmpty_cons, if_false, Bool.false_eq_true]
      rw [ih (by simp)]
      have hlen : 8 * ((v :: w :: rest').length) - p
          = 8 + (8 * ((w :: rest').length) - p) := by
        simp only [List.length_cons]
        omega
      rw [hlen, List.range_add]
      rw [List.map_append, List.map_map]
      rw [byteBits_bitAt v (w :: rest') 8 (by omega)]
      congr 1
      refine List.map_congr_left ?_
      intro k hk
      simp only [Function.comp_apply]
      exact (bitAt_cons v (w :: rest') k).symm

lemma bitsOfPayload_packBits (B : List Bool) (hB : B ≠ []) :
    bitsOfPayload (packBits B).2 (packBits B).1 = B := by
  have hpad := packBits_pad_lt B
  have hmod := packBits_pad_mod B
  have hlen := packBits_length B
  have hmax := packBits_maxBits B
  have hBpos : 0 < B.length := List.length_pos.mpr hB
  have hbytespos : 0 < (packBits B).1.length := by rw [hlen]; omega
  have hne : (packBits B).1 ≠ [] := by
    intro h; rw [h] at hbytespos; simp at hbytespos
  rw [bitsOfPayload_spec (packBits B).2 (by omega) _ hne]
  rw [show 8 * (packBits B).1.length - (packBits B).2 = B.length by omega]
  refine List.ext_getElem (by simp) ?_
  intro i h1 h2
  simp only [List.length_map, List.length_range] at h1
  simp only [List.getElem_map, List.getElem_range]
  rw [packBits_bitAt B i (by omega)]
  rw [List.getD_eq_getElem?_getD, List.getElem?_eq_getElem (by omega)]
  rfl

/-! ## Header round trip: frequency-table entries and dict rebuild -/

lemma toBytesBE_one (v : Nat) : toBytesBE v 1 = [v % 256] := by
  simp [toBytesBE, List.range_succ]

lemma readEntries_flatMap : ∀ (freqL : List (Nat × Nat)),
    (∀ kv ∈ freqL, kv.1 < 256 ∧ kv.2 < 2 ^ 32) → ∀ tail : List Nat,
    readEntries freqL.length
      (freqL.flatMap (fun kv => toBytesBE kv.1 1 ++ toBytesBE kv.2 4) ++ tail) =
      some (freqL, tail) := by
  intro freqL
  induction freqL with
  | nil => intro h tail; rfl
  | cons kv rest ih =>
    intro h tail
    obtain ⟨hk1, hk2⟩ := h kv (by simp)
    simp only [List.length_cons, List.flatMap_cons]
    rw [List.append_assoc]
    rw [readEntries]
    rw [if_pos (by
      simp only [List.length_append, toBytesBE_length]
      omega)]
    rw [List.drop_left' (by
      rw [List.length_append, toBytesBE_length, toBytesBE_length])]
    simp only [ih (fun kv' h' => h kv' (List.mem_cons_of_mem _ h')) tail]
    have hgetD : ((toBytesBE kv.1 1 ++ toBytesBE kv.2 4) ++
        (rest.flatMap (fun q => toBytesBE q.1 1 ++ toBytesBE q.2 4) ++ tail)).getD 0 0
          = kv.1 := by
      rw [List.getD_append _ _ _ 0 (by
        simp only [List.length_append, toBytesBE_length]
        omega)]
      rw [List.getD_append _ _ _ 0 (by rw [toBytesBE_length]; omega)]
      rw [toBytesBE_one, List.getD_cons_zero, Nat.mod_eq_of_lt hk1]
    have hslice : ((((toBytesBE kv.1 1 ++ toBytesBE kv.2 4) ++
        (rest.flatMap (fun q => toBytesBE q.1 1 ++ toBytesBE q.2 4) ++ tail)).drop 1).take 4)
          = toBytesBE kv.2 4 := by
      rw [List.append_assoc]
      rw [List.drop_left' (toBytesBE_length kv.1 1)]
      rw [List.take_left' (toBytesBE_length kv.2 4)]
    rw [hgetD, hslice, fromBytesBE_toBytesBE_of_lt kv.2 4 (by simpa using hk2)]

lemma dictSet_not_mem (acc : List (Nat × Nat)) (k v : Nat)
    (h : k ∉ acc.map Prod.fst) : dictSet acc k v = acc ++ [(k, v)] := by
  induction acc with
  | nil => rfl
  | cons p rest ih =>
    obtain ⟨k', v'⟩ := p
    simp only [List.map_cons, List.mem_cons] at h
    push_neg at h
    rw [dictSet, if_neg (fun he => h.1 he.symm), ih h.2]
    rfl

lemma foldl_dictSet_append : ∀ (L : List (Nat × Nat)), ∀ acc : List (Nat × Nat),
    (∀ k ∈ L.map Prod.fst, k ∉ acc.map Prod.fst) → (L.map Prod.fst).Nodup →
    L.foldl (fun d kv => dictSet d kv.1 kv.2) acc = acc ++ L := by
  intro L
  induction L with
  | nil => intro acc h hn; simp
  | cons kv rest ih =>
    intro acc h hn
    rw [List.foldl_cons]
    rw [dictSet_not_mem acc kv.1 kv.2 (h kv.1 (by simp))]
    have hmem : ∀ k ∈ rest.map Prod.fst, k ∉ (acc ++ [(kv.1, kv.2)]).map Prod.fst := by
      intro k hk hka
      simp only [List.map_append, List.mem_append] at hka
      rcases hka with hka | hka
      · exact h k (by simp [hk]) hka
      · simp only [List.map_cons, List.map_nil, List.mem_singleton] at hka
        subst hka
        simp only [List.map_cons, List.nodup_cons] at hn
        exact hn.1 hk
    have hnd : (rest.map Prod.fst).Nodup := by
      simp only [List.map_cons, List.nodup_cons] at hn
      exact hn.2
    rw [ih (acc ++ [(kv.1, kv.2)]) hmem hnd]
    simp

lemma foldl_dictSet (L : List (Nat × Nat)) (hn : (L.map Prod.fst).Nodup) :
    L.foldl (fun d kv => dictSet d kv.1 kv.2) [] = L := by
  have h := foldl_dictSet_append L [] (by simp) hn
  simpa using h

/-! ## The Huffman round trip -/

lemma gc_code_ne_nil (f : Nat) (l r : HNode) (b : Nat) (c : List Bool)
    (h : (b, c) ∈ generateCodes (HNode.node f l r) []) : c ≠ [] := by
  rw [generateCodes_node_mem] at h
  rcases h with ⟨c', rfl, -⟩ | ⟨c', rfl, -⟩ <;> simp

lemma huff_roundtrip (data : List Nat) (hbytes : ∀ b ∈ data, b < 256)
    (hlen : data.length < 2 ^ 32) (hdist : 2 ≤ (freqList data).length) :
    ∃ blob, huffCompress data = some blob ∧ huffDecompress blob = HuffResult.ok data := by
  obtain ⟨f, l, r, hbh, hperm⟩ := buildHuffman_two (freqList data) hdist
  set freq := freqList data with hfreq
  set root := HNode.node f l r with hroot
  set table := generateCodes root [] with htable
  have htab2 : (buildHuffman freq).2 = table := by rw [hbh]
  have hcover : ∀ b ∈ data, (table.lookup b).isSome := by
    intro b hb
    apply lookup_isSome_keys
    rw [htable, generateCodes_keys]
    rw [List.Perm.mem_iff hperm]
    rw [hfreq, freqList_keys_mem]
    exact hb
  have hdata_ne : data ≠ [] := by
    intro hd
    have h0 : freq = [] := by rw [hfreq, hd]; rfl
    rw [h0] at hdist
    simp at hdist
  set B := data.flatMap (fun b => (table.lookup b).getD []) with hB
  have hBne : B ≠ [] := by
    cases hd : data with
    | nil => exact absurd hd hdata_ne
    | cons b0 ds =>
      rw [hB, hd, List.flatMap_cons]
      obtain ⟨c, hc⟩ := Option.isSome_iff_exists.mp (hcover b0 (by rw [hd]; simp))
      rw [hc]
      simp only [Option.getD_some]
      have hmem : (b0, c) ∈ generateCodes (HNode.node f l r) [] := by
        have h1 := lookup_mem_pairs table b0 c hc
        rw [htable, hroot] at h1
        exact h1
      have hcne : c ≠ [] := gc_code_ne_nil f l r b0 c hmem
      intro hnil
      exact hcne (List.append_eq_nil.mp hnil).1
  set pb := packBits B with hpb
  set blob := pb.2 :: (toBytesBE freq.length 2 ++
      (freq.flatMap (fun kv => toBytesBE kv.1 1 ++ toBytesBE kv.2 4) ++ pb.1)) with hblob
  have hfne : freq.isEmpty = false := by
    cases hc : freq with
    | nil => rw [hc] at hdist; simp at hdist
    | cons a t => rfl
  have hbounds : ∀ kv ∈ freq, kv.1 < 256 ∧ kv.2 < 2 ^ 32 := by
    intro kv hkv
    rw [hfreq] at hkv
    refine ⟨freqList_keys_lt data hbytes kv hkv, ?_⟩
    have h2 := freqList_count_le data kv hkv
    omega
  refine ⟨blob, ?_, ?_⟩
  · simp only [huffCompress]
    rw [← hfreq]
    rw [hfne]
    simp only [Bool.false_eq_true, if_false]
    rw [htab2]
    have hany1 : (data.any fun b => (table.lookup b).isNone) = false := by
      rw [List.any_eq_false]
      intro b hb
      obtain ⟨c, hc⟩ := Option.isSome_iff_exists.mp (hcover b hb)
      rw [hc]
      simp
    rw [hany1]
    simp only [Bool.false_eq_true, if_false]
    have hany2 :
        (freq.any fun kv => decide (256 ≤ kv.1) || decide (2 ^ 32 ≤ kv.2)) = false := by
      rw [List.any_eq_false]
      intro kv hkv
      have h1 := (hbounds kv hkv).1
      have h2 := (hbounds kv hkv).2
      simp only [Bool.or_eq_true, decide_eq_true_eq]
      omega
    rw [hany2]
    simp only [Bool.false_eq_true, if_false]
    rw [← hB, ← hpb, hblob]
    simp [List.append_assoc]
  · rw [hblob, huffDecompress]
    rw [if_neg (by
      simp only [List.length_append, toBytesBE_length]
      omega)]
    rw [List.take_left' (toBytesBE_length freq.length 2)]
    have h256 : freq.length ≤ 256 := by
      rw [hfreq]
      exact freqList_length_le data hbytes
    rw [fromBytesBE_toBytesBE_of_lt freq.length 2 (by norm_num; omega)]
    rw [List.drop_left' (toBytesBE_length freq.length 2)]
    simp only [readEntries_flatMap freq hbounds pb.1]
    have hnodup : (freq.map Prod.fst).Nodup := by
      rw [hfreq]
      exact freqList_nodup data
    rw [foldl_dictSet freq hnodup]
    have hbh1 : (buildHuffman freq).1 = some root := by rw [hbh]
    simp only [hbh1]
    have htot : (freq.map Prod.snd).sum = data.length := by
      rw [hfreq]
      exact freqList_sum data
    rw [htot]
    rw [huffLoop_eq_decodeFlat]
    rw [hpb, bitsOfPayload_packBits B hBne, hB]
    rw [decodeFlat_flatMap root ⟨f, l, r, hroot⟩ table htable data [] 0 data.length
      (by simp) hcover]
    simp

/-! ## Prefix-freeness of the generated codes -/

lemma generateCodes_pairwise (t : HNode) :
    (generateCodes t []).Pairwise
      (fun p q => (∀ s : List Bool, p.2 ++ s ≠ q.2) ∧
        (∀ s : List Bool, q.2 ++ s ≠ p.2)) := by
  induction t with
  | leaf b f => simp [generateCodes]
  | node f l r ihl ihr =>
    simp only [generateCodes, List.nil_append]
    rw [generateCodes_acc l, generateCodes_acc r]
    rw [List.pairwise_append]
    refine ⟨?_, ?_, ?_⟩
    · refine List.Pairwise.map _ ?_ ihl
      intro p q hpq
      refine ⟨?_, ?_⟩
      · intro s hs
        rw [List.append_assoc] at hs
        exact hpq.1 s (List.append_cancel_left hs)
      · intro s hs
        rw [List.append_assoc] at hs
        exact hpq.2 s (List.append_cancel_left hs)
    · refine List.Pairwise.map _ ?_ ihr
      intro p q hpq
      refine ⟨?_, ?_⟩
      · intro s hs
        rw [List.append_assoc] at hs
        exact hpq.1 s (List.append_cancel_left hs)
      · intro s hs
        rw [List.append_assoc] at hs
        exact hpq.2 s (List.append_cancel_left hs)
    · intro p hp q hq
      simp only [List.mem_map] at hp hq
      obtain ⟨⟨pb, pc⟩, -, rfl⟩ := hp
      obtain ⟨⟨qb, qc⟩, -, rfl⟩ := hq
      constructor
      · intro s hs
        simp at hs
      · intro s hs
        simp at hs

/-- Claim C8: for every frequency distribution, the Huffman code table
produced by `build_huffman_tree_and_codes` is prefix-free: for any two
distinct entries, neither code extends to the other (in particular the codes
are distinct). -/
theorem C8_prefix_free (freqL : List (Nat × Nat)) :
    ((buildHuffman freqL).2).Pairwise
      (fun p q => (∀ s : List Bool, p.2 ++ s ≠ q.2) ∧
        (∀ s : List Bool, q.2 ++ s ≠ p.2)) := by
  simp only [buildHuffman]
  split
  · simp
  · split
    · simp
    · split
      · simp
      · exact generateCodes_pairwise _

/-- Witness: the two-symbol table is prefix-free. -/
theorem C8_prefix_free_witness :
    ((buildHuffman [(65, 1), (66, 2)]).2).Pairwise
      (fun p q => (∀ s : List Bool, p.2 ++ s ≠ q.2) ∧
        (∀ s : List Bool, q.2 ++ s ≠ p.2)) :=
  C8_prefix_free [(65, 1), (66, 2)]

/-! ## Heap-order facts for the merge loop -/

lemma heapInv_root_min (l : List HNode) (hinv : heapInv l) :
    ∀ j, j < l.length → (l.getD 0 default).hfreq ≤ (l.getD j default).hfreq := by
  intro j
  induction j using Nat.strong_induction_on with
  | _ j ih =>
    intro hj
    rcases Nat.eq_zero_or_pos j with rfl | hpos
    · exact le_refl _
    · exact le_trans (ih ((j - 1) / 2) (by omega) (by omega)) (hinv j hj hpos)

lemma heappop_fst (heap : List HNode) (x : HNode) (rest : List HNode)
    (h : heappop heap = some (x, rest)) : x = heap.getD 0 default := by
  rw [heappop] at h
  cases hl : heap.getLast? with
  | none => simp [hl] at h
  | some lastelt =>
    simp only [hl] at h
    by_cases he : heap.dropLast.isEmpty
    · simp only [he, if_true, Option.some.injEq, Prod.mk.injEq] at h
      obtain ⟨h1, -⟩ := h
      subst h1
      have hne : heap ≠ [] := by
        intro hnil; rw [hnil] at hl; simp at hl
      have hlen1 : heap.length = 1 := by
        have hd := heap.length_dropLast
        rw [List.isEmpty_iff] at he
        rw [he] at hd
        simp only [List.length_nil] at hd
        have hpos := List.length_pos.mpr hne
        omega
      obtain ⟨a, rfl⟩ := List.length_eq_one.mp hlen1
      simp only [List.getLast?_singleton, Option.some.injEq] at hl
      subst hl
      simp
    · simp only [he, if_false, Option.some.injEq, Prod.mk.injEq] at h
      obtain ⟨rfl, -⟩ := h
      have h0 : 0 < heap.dropLast.length :=
        List.length_pos.mpr (by simpa [List.isEmpty_iff] using he)
      rw [List.getD_eq_getElem _ _ h0, List.getD_eq_getElem _ _ (by
        rw [List.length_dropLast] at h0; omega)]
      exact List.getElem_dropLast heap 0 h0

/-- Claim C4 counterexample: four equal-weight leaves pushed in insertion
order 0,1,2,3; the first extraction returns the first-inserted leaf, but the
second extraction returns the third-inserted leaf, not the second-inserted
one — CPython's `heapq` does not break ties by insertion order. -/
theorem C4_insertion_order_counterexample :
    heappop ([((0 : Nat), (1 : Nat)), (1, 1), (2, 1), (3, 1)].foldl
        (fun h kv => heappush h (.leaf kv.1 kv.2)) []) =
      some (HNode.leaf 0 1, [HNode.leaf 2 1, HNode.leaf 1 1, HNode.leaf 3 1]) ∧
    heappop [HNode.leaf 2 1, HNode.leaf 1 1, HNode.leaf 3 1] =
      some (HNode.leaf 2 1, [HNode.leaf 1 1, HNode.leaf 3 1]) ∧
    (HNode.leaf 2 1 == HNode.leaf 1 1) = false :=
  ⟨by decide, by decide, by decide⟩

/-- Claim C4 (amended): extraction does always remove a lowest-weight node —
on any heap satisfying the binary-heap invariant, `heappop` returns a node
of minimal weight and the remaining multiset of nodes is preserved — but
ties are not broken by insertion order (see the counterexample). -/
theorem C4_heap_extraction (heap : List HNode) (x : HNode) (rest : List HNode)
    (hinv : heapInv heap) (h : heappop heap = some (x, rest)) :
    (∀ y ∈ heap, x.hfreq ≤ y.hfreq) ∧ (x :: rest).Perm heap := by
  refine ⟨?_, heappop_perm heap x rest h⟩
  intro y hy
  rw [heappop_fst heap x rest h]
  obtain ⟨j, hj, rfl⟩ := List.mem_iff_getElem.mp hy
  have hmin := heapInv_root_min heap hinv j hj
  rw [List.getD_eq_getElem _ _ hj] at hmin
  exact hmin

/-- Witness for the amended C4 theorem at a concrete two-node heap. -/
theorem C4_heap_extraction_witness :
    (∀ y ∈ [HNode.leaf 0 1, HNode.leaf 1 2], (HNode.leaf 0 1).hfreq ≤ y.hfreq) ∧
      (HNode.leaf 0 1 :: [HNode.leaf 1 2]).Perm [HNode.leaf 0 1, HNode.leaf 1 2] :=
  C4_heap_extraction [HNode.leaf 0 1, HNode.leaf 1 2] (HNode.leaf 0 1)
    [HNode.leaf 1 2] (by decide) (by decide)

/-! ## Claim C1: the round trips -/

/-- Claim C1 (amended): the LZ77 round trip is the identity on every
nonempty byte buffer of length `< 2^64`, and the Huffman round trip is the
identity on every byte buffer with at least two distinct byte values and
length `< 2^32`; but both compressors reject the empty buffer, producing no
blob at all (and single-symbol buffers crash the Huffman decoder, see C2). -/
theorem C1_roundtrip_amended :
    (∀ data : List Nat, data ≠ [] → (∀ b ∈ data, b < 256) → data.length < 2 ^ 64 →
      ∃ blob, lzCompress data = some blob ∧ lzDecompress blob = LzResult.success data) ∧
    (∀ data : List Nat, (∀ b ∈ data, b < 256) → data.length < 2 ^ 32 →
      2 ≤ (freqList data).length →
      ∃ blob, huffCompress data = some blob ∧ huffDecompress blob = HuffResult.ok data) ∧
    huffCompress [] = none ∧ lzCompress [] = none :=
  ⟨lz_roundtrip, huff_roundtrip, by rfl, by rfl⟩

/-- Witness: both round trips at concrete buffers. -/
theorem C1_roundtrip_amended_witness :
    (∃ blob, lzCompress [65] = some blob ∧ lzDecompress blob = LzResult.success [65]) ∧
    (∃ blob, huffCompress [65, 66] = some blob ∧
      huffDecompress blob = HuffResult.ok [65, 66]) :=
  ⟨C1_roundtrip_amended.1 [65] (by decide) (by decide) (by decide),
   C1_roundtrip_amended.2.1 [65, 66] (by decide) (by decide) (by decide)⟩

/-! ## Output accounting for the decoders -/

lemma huffInner_len (root : HNode) : ∀ (B : List Bool) (cur : HNode) (out : List Nat)
    (count total : Nat) (cur' : HNode) (out' : List Nat) (count' : Nat),
    huffInner root cur B out count total = HInner.cont cur' out' count' →
    out'.length + count = out.length + count' := by
  intro B
  induction B with
  | nil =>
    intro cur out count total cur' out' count' h
    rw [huffInner] at h
    cases h
    omega
  | cons bit bs ih =>
    intro cur out count total cur' out' count' h
    cases cur with
    | leaf b0 f0 =>
      simp only [huffInner] at h
      cases h
    | node f0 l0 r0 =>
      cases bit with
      | false =>
        cases l0 with
        | leaf b1 f1 =>
          simp only [huffInner, Bool.false_eq_true, if_false] at h
          split at h
          · cases h
            simp only [List.length_append, List.length_cons, List.length_nil]
            omega
          · have h2 := ih root (out ++ [b1]) (count + 1) total cur' out' count' h
            simp only [List.length_append, List.length_cons, List.length_nil] at h2
            omega
        | node f1 cl cr =>
          simp only [huffInner, Bool.false_eq_true, if_false] at h
          exact ih (HNode.node f1 cl cr) out count total cur' out' count' h
      | true =>
        cases r0 with
        | leaf b1 f1 =>
          simp only [huffInner, if_true] at h
          split at h
          · cases h
            simp only [List.length_append, List.length_cons, List.length_nil]
            omega
          · have h2 := ih root (out ++ [b1]) (count + 1) total cur' out' count' h
            simp only [List.length_append, List.length_cons, List.length_nil] at h2
            omega
        | node f1 cl cr =>
          simp only [huffInner, if_true] at h
          exact ih (HNode.node f1 cl cr) out count total cur' out' count' h

lemma huffLoop_len (root : HNode) (padding total : Nat) : ∀ (payload : List Nat)
    (cur : HNode) (out : List Nat) (count : Nat) (out' : List Nat) (count' : Nat),
    huffLoop root padding total payload cur out count = HLoopRes.finished out' count' →
    out'.length + count = out.length + count' := by
  intro payload
  induction payload with
  | nil =>
    intro cur out count out' count' h
    rw [huffLoop] at h
    cases h
    omega
  | cons v rest ih =>
    intro cur out count out' count' h
    rw [huffLoop] at h
    split at h
    · cases h
      omega
    · split at h
      · cases h
      · rename_i cur2 out2 count2 heq
        have h1 := huffInner_len root _ cur out count total cur2 out2 count2 heq
        have h2 := ih cur2 out2 count2 out' count' h
        omega

lemma copyLoop_len (orig : Nat) : ∀ (steps : Nat) (out : List Nat) (start count : Nat),
    (copyLoop orig steps out start count).1.length + count =
      out.length + (copyLoop orig steps out start count).2 := by
  intro steps
  induction steps with
  | zero => intro out start count; rfl
  | succ n ih =>
    intro out start count
    rw [copyLoop]
    split
    · rfl
    · have h2 := ih (out ++ [out.getD start 0]) (start + 1) (count + 1)
      simp only [List.length_append, List.length_cons, List.length_nil] at h2
      omega

lemma lzLoopF_len (bytes : List Nat) (maxBits origSize : Nat) :
    ∀ (fuel pos : Nat) (out : List Nat) (count : Nat) (out' : List Nat)
      (count' pos' : Nat),
    lzLoopF bytes maxBits origSize pos out count fuel = LzLoopRes.done out' count' pos' →
    out'.length + count = out.length + count' := by
  intro fuel
  induction fuel with
  | zero =>
    intro pos out count out' count' pos' h
    rw [lzLoopF] at h
    cases h
    omega
  | succ n ih =>
    intro pos out count out' count' pos' h
    rw [lzLoopF] at h
    simp only [] at h
    split at h
    · split at h
      · cases h; omega
      · rename_i flag hflag
        split at h
        · split at h
          · cases h; omega
          · rename_i lit hlit
            have h2 := ih _ _ _ _ _ _ h
            simp only [List.length_append, List.length_cons, List.length_nil] at h2
            omega
        · split at h
          · cases h; omega
          · rename_i dist hdist
            split at h
            · cases h; omega
            · rename_i lcode hlcode
              split at h
              · split at h
                · cases h; omega
                · rename_i lit hlit
                  split at h
                  · cases h
                  · split at h
                    · have h2 := ih _ _ _ _ _ _ h
                      have hc := copyLoop_len origSize (lcode + MIN_MATCH_LENGTH)
                        out (out.length - dist) count
                      simp only [List.length_append, List.length_cons,
                        List.length_nil] at h2
                      omega
                    · have h2 := ih _ _ _ _ _ _ h
                      have hc := copyLoop_len origSize (lcode + MIN_MATCH_LENGTH)
                        out (out.length - dist) count
                      omega
              · split at h
                · cases h
                · have h2 := ih _ _ _ _ _ _ h
                  have hc := copyLoop_len origSize (lcode + MIN_MATCH_LENGTH)
                    out (out.length - dist) count
                  omega
    · cases h; omega

/-- Claim C9 (amended): decoded-count mismatches are reported as typed
errors, but the output is written incrementally, so exactly `found` bytes
(the partial decode) are left written when the mismatch is reported — for
both codecs. -/
theorem C9_output_accounting :
    (∀ (blob w : List Nat) (found expected : Nat),
      huffDecompress blob = HuffResult.mismatch w found expected →
      w.length = found ∧ found ≠ expected) ∧
    (∀ (blob w : List Nat) (found expected : Nat),
      lzDecompress blob = LzResult.sizeMismatch w found expected →
      w.length = found ∧ found ≠ expected) := by
  constructor
  · intro blob w found expected h
    cases blob with
    | nil => rw [huffDecompress] at h; cases h
    | cons padding rest =>
      rw [huffDecompress] at h
      split at h
      · cases h
      · split at h
        · cases h
        · simp only [] at h
          split at h
          · cases h
          · rename_i root hroot
            split at h
            · cases h
            · rename_i out count hloop
              split at h
              · cases h
              · rename_i hne
                cases h
                have h1 := huffLoop_len root padding _ _ root [] 0 _ _ hloop
                simp only [List.length_nil] at h1
                exact ⟨by omega, hne⟩
  · intro blob w found expected h
    rw [lzDecompress] at h
    split at h
    · cases h
    · split at h
      · cases h
      · simp only [] at h
        split at h
        · cases h
        · rename_i out count pos2 hloop
          split at h
          · cases h
          · rename_i hne
            cases h
            rw [lzLoop] at hloop
            have h1 := lzLoopF_len (blob.drop 9) _ _ _ _ _ _ _ _ _ hloop
            simp only [List.length_nil] at h1
            exact ⟨by omega, hne⟩

/-- Witness: the amended C9 theorem applied at concrete mismatching blobs
for both codecs. -/
theorem C9_output_accounting_witness :
    (([65, 65, 65, 65, 65, 65, 65, 65] : List Nat).length = 8 ∧ (8 : Nat) ≠ 10) ∧
    (([65] : List Nat).length = 1 ∧ (1 : Nat) ≠ 2) :=
  ⟨C9_output_accounting.1 [0, 0, 2, 65, 0, 0, 0, 5, 66, 0, 0, 0, 5, 0]
      [65, 65, 65, 65, 65, 65, 65, 65] 8 10 (by decide),
   C9_output_accounting.2 [0, 0, 0, 0, 0, 0, 0, 2, 7, 32, 128] [65] 1 2 (by decide)⟩

end CEP
